import Mathlib

/-!
Verification of the circular buffer (`buffer.h`) and the order-statistic
filters (`movingmedian.h`, `movingmiddle.h`) of libfilter-ng.

The C++ classes are shallowly embedded.  The index type `uint_t` defaults to
`unsigned short int` (16 bits); its values are modelled as natural numbers
below `2^16` and every arithmetic step of the source is performed modulo
`2^16`, exactly as the hardware would.  The element type `data_t` is kept as a
type parameter where the source is agnostic about it; `data_t()` is the
`Inhabited.default` of the parameter.  The backing storage pointer `m_buffer`
is modelled as `none` for a null pointer and `some l` for a pointer to an
array whose cells hold the elements of `l`.
-/

set_option linter.unusedSectionVars false

namespace LibFilter

/-- Modulus of the 16-bit index type `uint_t = unsigned short int` used
throughout the library; every `uint_t` computation wraps at this value. -/
def U : Nat := 65536

/-- Increment of a `uint_t` value, wrapping at `2^16` (the `++x` steps). -/
def uinc (x : Nat) : Nat := (x + 1) % U

/-- Decrement of a `uint_t` value, wrapping at `2^16` (the `--x` steps). -/
def udec (x : Nat) : Nat := (x + (U - 1)) % U

/-- Subtraction `x - y` of `uint_t` values, wrapping at `2^16`.  The second
argument is reduced modulo `U` first so that the definition is total. -/
def usub (x y : Nat) : Nat := (x + (U - y % U)) % U

variable {α : Type} [Inhabited α] [DecidableEq α]

/-- State of `buffer::Buffer<data_t, uint_t>` (buffer.h, lines 115-122), with
the fields in source order.  `stor` is the `m_buffer` pointer: `none` models a
null pointer, `some l` a pointer to caller memory holding the elements of `l`.
The pointer comparison `buffer != m_buffer` inside `init` is modelled as
inequality of these optional arrays (no claim depends on aliasing of two
distinct pointers to equal contents). -/
structure Buffer (α : Type) where
  mask : Nat
  tail : Nat
  head : Nat
  count : Nat
  stor : Option (List α)
  safeErase : Bool
deriving DecidableEq

/-- Read `m_buffer[i]`.  Reading through a null pointer is undefined behaviour
in the source; the model returns the default value in that case (no claim is
settled through this branch). -/
def bread (b : Buffer α) (i : Nat) : α :=
  match b.stor with
  | some l => l.getD i default
  | none => default

/-- Write `m_buffer[i] = v` (no-op through a null pointer, which would be
undefined behaviour in the source). -/
def bwrite (b : Buffer α) (i : Nat) (v : α) : Buffer α :=
  { b with stor := b.stor.map fun l => l.set i v }

/-- `Buffer::erase` (buffer.h, lines 343-350): overwrite cells
`0 .. m_buffer_mask` with the default value. -/
def Buffer.erase (b : Buffer α) : Buffer α :=
  if b.stor = none then b
  else (List.range (b.mask + 1)).foldl (fun acc i => bwrite acc i default) b

/-- `Buffer::Buffer(data_t*, uint_t, bool)` (buffer.h, lines 135-179): member
initialisation, the `size <= 3` and power-of-two checks (each returning the
null state), then binding of the storage; `m_buffer_mask = buffer ? size-1 : 0`. -/
def Buffer.ctor (buffer : Option (List α)) (size : Nat) (safe_erase : Bool) :
    Buffer α :=
  let b : Buffer α := ⟨0, 0, 0, 0, none, safe_erase⟩
  if size ≤ 3 then b
  else if size &&& (size - 1) ≠ 0 then b
  else
    let b := { b with mask := if buffer.isSome then size - 1 else 0,
                      stor := buffer }
    if b.safeErase then b.erase else b

/-- `Buffer::init` (buffer.h, lines 194-224): reset the cursors, then rebind
the storage if the pointer differs; `m_buffer_mask = size - 1` is `uint_t`
arithmetic.  Note that, unlike the constructor, `init` performs no validation
of `size` whatsoever. -/
def Buffer.init (b : Buffer α) (buffer : Option (List α)) (size : Nat)
    (safe_erase : Bool) : Buffer α :=
  let b := { b with tail := 0, head := 0, count := 0, safeErase := safe_erase }
  let b :=
    if buffer ≠ b.stor then
      if buffer = none then { b with mask := 0, stor := none }
      else { b with mask := usub size 1, stor := buffer }
    else b
  if b.safeErase then b.erase else b

/-- `Buffer::pushFront` (buffer.h, lines 226-239). -/
def Buffer.pushFront (b : Buffer α) (v : α) : Buffer α :=
  if b.stor = none then b
  else
    let b := bwrite b b.head v
    let b := { b with head := uinc b.head &&& b.mask }
    if b.head = b.tail then { b with tail := uinc b.tail &&& b.mask }
    else { b with count := uinc b.count }

/-- `Buffer::pushBack` (buffer.h, lines 241-254). -/
def Buffer.pushBack (b : Buffer α) (v : α) : Buffer α :=
  if b.stor = none then b
  else
    let b := { b with tail := udec b.tail &&& b.mask }
    let b := bwrite b b.tail v
    if b.head = b.tail then { b with head := udec b.head &&& b.mask }
    else { b with count := uinc b.count }

/-- `Buffer::popFront` (buffer.h, lines 256-268).  The optional out-parameter
write does not change the buffer state and is dropped from the model. -/
def Buffer.popFront (b : Buffer α) : Buffer α :=
  if b.stor = none ∨ b.tail = b.head then b
  else { b with head := udec b.head &&& b.mask, count := udec b.count }

/-- `Buffer::popBack` (buffer.h, lines 270-282). -/
def Buffer.popBack (b : Buffer α) : Buffer α :=
  if b.stor = none ∨ b.tail = b.head then b
  else { b with tail := uinc b.tail &&& b.mask, count := udec b.count }

/-- `Buffer::clear` (buffer.h, lines 284-295). -/
def Buffer.clear (b : Buffer α) : Buffer α :=
  let b := { b with tail := 0, head := 0, count := 0 }
  if b.safeErase then b.erase else b

/-- `Buffer::full` (buffer.h, lines 297-301): `m_buffer_count == m_buffer_mask`. -/
def Buffer.full (b : Buffer α) : Bool := b.count == b.mask

/-- `Buffer::empty` (buffer.h, lines 303-307): `m_buffer_tail == m_buffer_head`. -/
def Buffer.empty (b : Buffer α) : Bool := b.tail == b.head

/-- `Buffer::valid` (buffer.h, lines 309-313): `m_buffer != nullptr`. -/
def Buffer.valid (b : Buffer α) : Bool := b.stor.isSome

/-- `Buffer::size` (buffer.h, lines 315-319). -/
def Buffer.size (b : Buffer α) : Nat := if b.mask = 0 then 0 else b.mask

/-- `Buffer::first` (buffer.h, lines 327-333): the newest element,
`m_buffer[(m_buffer_head-1) & m_buffer_mask]`. -/
def Buffer.first (b : Buffer α) : α :=
  if b.stor = none ∨ b.head = b.tail then default
  else bread b (usub b.head 1 &&& b.mask)

/-- `Buffer::last` (buffer.h, lines 335-341): the oldest element,
`m_buffer[m_buffer_tail]`. -/
def Buffer.last (b : Buffer α) : α :=
  if b.stor = none ∨ b.head = b.tail then default
  else bread b b.tail

/-- `Buffer::at` (buffer.h, lines 352-358).  The guard compares
`index > m_buffer_count - 1` in `uint_t` arithmetic, exactly as the source
does (so for `m_buffer_count == 0` the subtraction wraps to `2^16 - 1`).
`index` is a `uint_t` value (`index < U`). -/
def Buffer.atIdx (b : Buffer α) (index : Nat) : α :=
  if b.stor = none ∨ index > usub b.count 1 then default
  else bread b (usub (usub b.head 1) index &&& b.mask)

/-- `Buffer::rotateForeward` (buffer.h, lines 360-376). -/
def Buffer.rotateForeward (b : Buffer α) : Buffer α :=
  if b.count ≠ b.mask then b
  else
    let tmp := bread b b.head
    let b1 := bwrite b b.head (bread b b.tail)
    let b2 := bwrite b1 b.tail tmp
    { b2 with head := uinc b2.head &&& b2.mask, tail := uinc b2.tail &&& b2.mask }

/-- `Buffer::rotateBackward` (buffer.h, lines 378-394). -/
def Buffer.rotateBackward (b : Buffer α) : Buffer α :=
  if b.count ≠ b.mask then b
  else
    let p := usub b.head 1 &&& b.mask
    let tmp := bread b p
    let b1 := bwrite b p (bread b b.head)
    let b2 := bwrite b1 b.head tmp
    { b2 with head := udec b2.head &&& b2.mask, tail := udec b2.tail &&& b2.mask }

/-- `Buffer::copyToArray` (buffer.h, lines 399-418).  The function writes
through the `array` pointer and leaves the buffer unchanged, so the model
returns the destination array.  `start + count` is `uint_t` addition. -/
def Buffer.copyToArray (b : Buffer α) (array : Option (List α))
    (start cnt : Nat) : Option (List α) :=
  if b.stor = none ∨ array = none then array
  else if b.head = b.tail then array
  else if (start + cnt) % U > usub b.count 1 then array
  else
    let last_index := if cnt = 0 then b.count else (start + cnt) % U
    array.map fun arr =>
      (List.range' start (last_index - start)).foldl
        (fun acc i => acc.set i (bread b (usub (usub b.head 1) i &&& b.mask)))
        arr

/-- The buffer's current logical contents, newest first:
`at(0), at(1), …, at(count-1)`. -/
def Buffer.contents (b : Buffer α) : List α :=
  (List.range b.count).map b.atIdx

/-- Push a whole list of samples through `pushFront`, oldest first. -/
def Buffer.pushList (b : Buffer α) (vs : List α) : Buffer α :=
  vs.foldl Buffer.pushFront b

/-- Well-formedness of a bound buffer of capacity `2^k`: the cursor state a
successful construction establishes and every operation preserves.  `k ≤ 15`
because the capacity is passed as a `uint_t` value (`2^k < 2^16`). -/
def InvK (k : Nat) (b : Buffer α) : Prop :=
  2 ≤ k ∧ k ≤ 15 ∧ b.mask = 2 ^ k - 1 ∧ b.head < 2 ^ k ∧ b.tail < 2 ^ k ∧
  b.count = (b.head + 2 ^ k - b.tail) % 2 ^ k ∧
  b.stor.map List.length = some (2 ^ k)

instance (k : Nat) (b : Buffer α) : Decidable (InvK k b) := by
  unfold InvK; exact inferInstance

/-- A buffer is well formed when it is well formed for some capacity. -/
def Inv (b : Buffer α) : Prop := ∃ k, InvK k b

/-- One application of a (non-rebinding) public mutating operation of
`buffer::Buffer`. -/
inductive BufStep : Buffer α → Buffer α → Prop where
  | pushFront (b : Buffer α) (v : α) : BufStep b (b.pushFront v)
  | pushBack (b : Buffer α) (v : α) : BufStep b (b.pushBack v)
  | popFront (b : Buffer α) : BufStep b b.popFront
  | popBack (b : Buffer α) : BufStep b b.popBack
  | clear (b : Buffer α) : BufStep b b.clear
  | erase (b : Buffer α) : BufStep b b.erase
  | rotateForeward (b : Buffer α) : BufStep b b.rotateForeward
  | rotateBackward (b : Buffer α) : BufStep b b.rotateBackward

/-- Buffer states reachable from `b0` by any sequence of operations. -/
def Reachable (b0 b : Buffer α) : Prop :=
  Relation.ReflTransGen BufStep b0 b

/-! ### The median filter (movingmedian.h) -/

/-- The outer loop of `MovingMedian::out` (movingmedian.h, lines 116-174),
as a recursion over the not-yet-scanned elements.  `xs` is the whole element
sequence (the inner loop of lines 132-146 scans all of it), `mid` the median
index, `sg`/`sl` the `skip_greater_than` / `skip_lesser_than` bounds together
with their `_found` flags.  The inner loop increments `left_index` on
`cmp < cur` and `right_index` on `cmp < cur` or `cmp == cur`, so after it
`left_index` counts the elements `< cur` and `right_index` those `≤ cur`.
The result is the `median_element` set at the `break`, or `none` when the
loop runs out (in which case the C++ would return an uninitialised value;
this is proved unreachable below).

The test `skip_greater_than_found && cur_element >= skip_greater_than`
(movingmedian.h, line 121) is `sgSkip`; the optional value carries the flag. -/
def sgSkip (sg : Option Int) (c : Int) : Bool :=
  match sg with
  | some g => decide (c ≥ g)
  | none => false

/-- The test `skip_lesser_than_found && cur_element <= skip_lesser_than`
(movingmedian.h, line 123). -/
def slSkip (sl : Option Int) (c : Int) : Bool :=
  match sl with
  | some l0 => decide (c ≤ l0)
  | none => false

def medianScan (xs : List Int) (mid : Nat) :
    List Int → Option Int → Option Int → Option Int
  | [], _, _ => none
  | c :: rest, sg, sl =>
    if sgSkip sg c then
      medianScan xs mid rest sg sl
    else if slSkip sl c then
      medianScan xs mid rest sg sl
    else
      let left := xs.countP (fun y => y < c)
      let right := xs.countP (fun y => y ≤ c)
      if left ≤ mid ∧ mid < right then some c
      else if mid < left then medianScan xs mid rest (some c) sl
      else if right ≤ mid then medianScan xs mid rest sg (some c)
      else medianScan xs mid rest sg sl

/-- `MovingMedian::out` (movingmedian.h, lines 100-177).  The loops read
`Buffer::at(0) .. at(buffer_count-1)`, which is `b.contents`.  When the outer
loop never hits the `break`, the C++ returns the uninitialised
`median_element`; the model returns the default value (that branch is proved
unreachable for `count ≥ 3`). -/
def MovingMedian.out (b : Buffer Int) : Int :=
  let buffer_count := b.count
  if buffer_count < 3 then default
  else
    match medianScan b.contents (buffer_count / 2) b.contents none none with
    | some m => m
    | none => default

/-- `MovingMedian::in` (movingmedian.h, lines 179-183). -/
def MovingMedian.in_ (b : Buffer Int) (value : Int) : Buffer Int :=
  b.pushFront value

/-! ### The extremum tracker (movingmiddle.h)

`data_t` is instantiated at `ℚ`: the source computes the midpoint with
`m_min + ((m_max - m_min) / 2.0F)`, and over `ℚ` the halving is exact. -/

/-- State of `filter::MovingMiddle` : the protected base `Buffer` plus the
cached extrema `m_min`, `m_max`. -/
structure MovingMiddle where
  buf : Buffer ℚ
  m_min : ℚ
  m_max : ℚ
deriving DecidableEq

/-- `MovingMiddle::MovingMiddle` (movingmiddle.h, lines 96-103):
`Buffer(buffer, buffer_size)`, `m_min(data_t())`, `m_max(data_t())`. -/
def MovingMiddle.ctor (buffer : Option (List ℚ)) (buffer_size : Nat) :
    MovingMiddle :=
  ⟨Buffer.ctor buffer buffer_size false, default, default⟩

/-- Body of the rescan loop of `MovingMiddle::in` (movingmiddle.h, lines
164-169), acting on the pair `(m_min, m_max)`. -/
def MovingMiddle.rescanStep (b : Buffer ℚ) (mm : ℚ × ℚ) (i : Nat) : ℚ × ℚ :=
  let current := b.atIdx i
  if current < mm.1 then (current, mm.2)
  else if current > mm.2 then (mm.1, current)
  else mm

/-- `MovingMiddle::in` (movingmiddle.h, lines 138-189). -/
def MovingMiddle.in_ (st : MovingMiddle) (value : ℚ) : MovingMiddle :=
  if !st.buf.valid then st
  else if st.buf.full then
    let lastv := st.buf.last
    let b' := st.buf.pushFront value
    if value = lastv then { st with buf := b' }
    else if lastv = st.m_min ∧ value < st.m_min then
      ⟨b', value, st.m_max⟩
    else if lastv = st.m_max ∧ value > st.m_max then
      ⟨b', st.m_min, value⟩
    else if lastv = st.m_min ∨ lastv = st.m_max then
      let mn0 := b'.first
      let res := (List.range' 1 (b'.count - 1)).foldl
        (MovingMiddle.rescanStep b') (mn0, mn0)
      ⟨b', res.1, res.2⟩
    else if value > st.m_max then ⟨b', st.m_min, value⟩
    else if value < st.m_min then ⟨b', value, st.m_max⟩
    else { st with buf := b' }
  else
    let b' := st.buf.pushFront value
    if b'.count = 1 then ⟨b', value, value⟩
    else if value < st.m_min then ⟨b', value, st.m_max⟩
    else if value > st.m_max then ⟨b', st.m_min, value⟩
    else { st with buf := b' }

/-- Body of the selection loop of `MovingMiddle::out` (movingmiddle.h, lines
122-133), acting on the pair `(element, element_to_middle_dist)`.  After
updating `element` the C++ recomputes the distance from the new `element`,
which is the just-computed `cur_to_middle_dist`; the recomputation is kept. -/
def MovingMiddle.outStep (b : Buffer ℚ) (middle : ℚ) (acc : ℚ × ℚ) (i : Nat) :
    ℚ × ℚ :=
  let current := b.atIdx i
  let cur_dist := if middle > current then middle - current else current - middle
  if cur_dist < acc.2 then
    (current, if middle > current then middle - current else current - middle)
  else acc

/-- `MovingMiddle::out` (movingmiddle.h, lines 105-136). -/
def MovingMiddle.out (st : MovingMiddle) : ℚ :=
  if st.buf.count < 2 then default
  else
    let middle := st.m_min + (st.m_max - st.m_min) / 2
    let element := st.buf.first
    let dist := if middle > element then middle - element else element - middle
    ((List.range' 1 (st.buf.count - 1)).foldl
      (MovingMiddle.outStep st.buf middle) (element, dist)).1

/-- Feed a list of samples through `MovingMiddle::in`, oldest first. -/
def MovingMiddle.run (st : MovingMiddle) (vs : List ℚ) : MovingMiddle :=
  vs.foldl MovingMiddle.in_ st

/-- Specification predicate for the extremum tracker: the cached `m_min` and
`m_max` are elements of the buffer's current logical contents and bound every
element. -/
def MinMaxOk (st : MovingMiddle) : Prop :=
  st.m_min ∈ st.buf.contents ∧ st.m_max ∈ st.buf.contents ∧
  ∀ x ∈ st.buf.contents, st.m_min ≤ x ∧ x ≤ st.m_max

/-! ### Arithmetic toolkit for the wrapped index computations -/

theorem U_eq : U = 2 ^ 16 := rfl

theorem pow_dvd_U {k : Nat} (hk : k ≤ 16) : 2 ^ k ∣ U :=
  U_eq ▸ pow_dvd_pow 2 hk

theorem two_pow_le_U {k : Nat} (hk : k ≤ 16) : 2 ^ k ≤ U :=
  U_eq ▸ Nat.pow_le_pow_right (by omega) hk

theorem landMask {k : Nat} (hk : k ≤ 16) (y : Nat) :
    (y % U) &&& (2 ^ k - 1) = y % 2 ^ k := by
  rw [Nat.and_pow_two_sub_one_eq_mod, Nat.mod_mod_of_dvd y (pow_dvd_U hk)]

theorem mod_add_multiple {n y : Nat} (x : Nat) (h : n ∣ y) :
    (x + y) % n = x % n := by
  obtain ⟨c, rfl⟩ := h
  rw [Nat.mul_comm, Nat.add_mul_mod_self_right]

theorem mod_cases {n : Nat} (a : Nat) (h : a < 2 * n) :
    a % n = if a < n then a else a - n := by
  split
  · exact Nat.mod_eq_of_lt (by assumption)
  · rw [Nat.mod_eq_sub_mod (by omega), Nat.mod_eq_of_lt (by omega)]

theorem modeq_drop {k : Nat} (hk : k ≤ 16) (y z : Nat) :
    (y % U + z) % 2 ^ k = (y + z) % 2 ^ k :=
  ((Nat.mod_modEq y U).of_dvd (pow_dvd_U hk)).add_right z

theorem uinc_land {k : Nat} (hk : k ≤ 16) (x : Nat) :
    uinc x &&& (2 ^ k - 1) = (x + 1) % 2 ^ k :=
  landMask hk (x + 1)

theorem udec_land {k : Nat} (hk : k ≤ 16) (x : Nat) :
    udec x &&& (2 ^ k - 1) = (x + (2 ^ k - 1)) % 2 ^ k := by
  have h1 : x + (U - 1) = x + (2 ^ k - 1) + (U - 2 ^ k) := by
    have := two_pow_le_U hk
    have : 1 ≤ 2 ^ k := Nat.one_le_two_pow
    omega
  rw [udec, landMask hk, h1,
    mod_add_multiple _ (Nat.dvd_sub' (pow_dvd_U hk) dvd_rfl)]

theorem uinc_eq {x : Nat} (h : x + 1 < U) : uinc x = x + 1 :=
  Nat.mod_eq_of_lt h

theorem usub_one_eq {x : Nat} (h1 : 1 ≤ x) (h2 : x < U) : usub x 1 = x - 1 := by
  have : x % U = x := Nat.mod_eq_of_lt h2
  have h3 : (1 : Nat) % U = 1 := rfl
  have h4 : x + (U - 1) = (x - 1) + U := by omega
  rw [usub, h3, h4, Nat.add_mod_right, Nat.mod_eq_of_lt (by omega)]

theorem udec_eq {x : Nat} (h1 : 1 ≤ x) (h2 : x < U) : udec x = x - 1 := by
  have h4 : x + (U - 1) = (x - 1) + U := by omega
  rw [udec, h4, Nat.add_mod_right, Nat.mod_eq_of_lt (by omega)]

/-- The physical slot read by `at(i)`: `(m_buffer_head - 1 - index) & mask`
computed in `uint_t` arithmetic equals `(head + 2^k - 1 - i) mod 2^k`. -/
theorem at_index_eq {k : Nat} (hk : k ≤ 16) (h i : Nat) (hi : i < 2 ^ k) :
    usub (usub h 1) i &&& (2 ^ k - 1) = (h + 2 ^ k - 1 - i) % 2 ^ k := by
  have hiU : i < U := lt_of_lt_of_le hi (two_pow_le_U hk)
  have hP : 2 ^ k ≤ U := two_pow_le_U hk
  have h1 : (1 : Nat) % U = 1 := rfl
  have hmi : i % U = i := Nat.mod_eq_of_lt hiU
  rw [usub, usub, h1, hmi, landMask hk, modeq_drop hk]
  have key : h + (U - 1) + (U - i) = (h + 2 ^ k - 1 - i) + (2 * U - 2 ^ k) := by
    have hU : U = 65536 := rfl
    omega
  rw [key, mod_add_multiple _ (Nat.dvd_sub' (Dvd.dvd.mul_left (pow_dvd_U hk) 2) dvd_rfl)]

/-! ### Consequences of the invariant and step lemmas for the operations -/

theorem InvK.k16 {k : Nat} {b : Buffer α} (hb : InvK k b) : k ≤ 16 := by
  have := hb.2.1; omega

theorem InvK.mask_eq {k : Nat} {b : Buffer α} (hb : InvK k b) :
    b.mask = 2 ^ k - 1 := hb.2.2.1

theorem InvK.head_lt {k : Nat} {b : Buffer α} (hb : InvK k b) :
    b.head < 2 ^ k := hb.2.2.2.1

theorem InvK.tail_lt {k : Nat} {b : Buffer α} (hb : InvK k b) :
    b.tail < 2 ^ k := hb.2.2.2.2.1

theorem InvK.count_eq {k : Nat} {b : Buffer α} (hb : InvK k b) :
    b.count = (b.head + 2 ^ k - b.tail) % 2 ^ k := hb.2.2.2.2.2.1

theorem InvK.n_pos {k : Nat} {b : Buffer α} (hb : InvK k b) : 0 < 2 ^ k :=
  Nat.pos_pow_of_pos k (by omega)

theorem InvK.four_le {k : Nat} {b : Buffer α} (hb : InvK k b) : 4 ≤ 2 ^ k := by
  calc 4 = 2 ^ 2 := rfl
  _ ≤ 2 ^ k := Nat.pow_le_pow_right (by omega) hb.1

theorem InvK.count_lt {k : Nat} {b : Buffer α} (hb : InvK k b) :
    b.count < 2 ^ k := by
  rw [hb.count_eq]; exact Nat.mod_lt _ hb.n_pos

theorem InvK.pow_lt_U {k : Nat} {b : Buffer α} (hb : InvK k b) : 2 ^ k < U := by
  have h : (2 : Nat) ^ k ≤ 2 ^ 15 := Nat.pow_le_pow_right (by omega) hb.2.1
  have h2 : (2 : Nat) ^ 15 < U := by rw [U_eq]; exact Nat.pow_lt_pow_right (by omega) (by omega)
  omega

theorem InvK.stor_some {k : Nat} {b : Buffer α} (hb : InvK k b) :
    ∃ l : List α, b.stor = some l ∧ l.length = 2 ^ k := by
  have h := hb.2.2.2.2.2.2
  cases hs : b.stor with
  | none => rw [hs] at h; simp at h
  | some l =>
    refine ⟨l, rfl, ?_⟩
    rw [hs] at h
    simpa using h

/-- `head == tail` characterises emptiness on a well-formed buffer. -/
theorem InvK.count_zero_iff {k : Nat} {b : Buffer α} (hb : InvK k b) :
    b.count = 0 ↔ b.head = b.tail := by
  have hh := hb.head_lt
  have ht := hb.tail_lt
  rw [hb.count_eq, mod_cases _ (by omega)]
  split <;> omega

/-- After the advance of `head`, the collision `head == tail` happens exactly
when the buffer was full. -/
theorem InvK.collide_iff {k : Nat} {b : Buffer α} (hb : InvK k b) :
    (b.head + 1) % 2 ^ k = b.tail ↔ b.count = 2 ^ k - 1 := by
  have hh := hb.head_lt
  have ht := hb.tail_lt
  have h4 := hb.four_le
  rw [hb.count_eq, mod_cases (b.head + 1) (by omega),
    mod_cases (b.head + 2 ^ k - b.tail) (by omega)]
  split <;> split <;> omega

theorem bwrite_eq {b : Buffer α} {l : List α} (hl : b.stor = some l)
    (i : Nat) (v : α) : bwrite b i v = { b with stor := some (l.set i v) } := by
  rw [bwrite, hl]; rfl

theorem pushFront_eq_nonfull {k : Nat} {b : Buffer α} (hb : InvK k b)
    {l : List α} (hl : b.stor = some l) (v : α) (hc : b.count ≠ 2 ^ k - 1) :
    b.pushFront v = ⟨b.mask, b.tail, (b.head + 1) % 2 ^ k, b.count + 1,
      some (l.set b.head v), b.safeErase⟩ := by
  have hcnt : b.count + 1 < U := by
    have := hb.count_lt; have := hb.pow_lt_U; omega
  rw [Buffer.pushFront, if_neg (by rw [hl]; simp)]
  simp only [bwrite_eq hl, hb.mask_eq, uinc_land hb.k16]
  rw [if_neg (fun h => hc (hb.collide_iff.mp h)), uinc_eq hcnt]

theorem pushFront_eq_full {k : Nat} {b : Buffer α} (hb : InvK k b)
    {l : List α} (hl : b.stor = some l) (v : α) (hc : b.count = 2 ^ k - 1) :
    b.pushFront v = ⟨b.mask, (b.tail + 1) % 2 ^ k, (b.head + 1) % 2 ^ k,
      b.count, some (l.set b.head v), b.safeErase⟩ := by
  rw [Buffer.pushFront, if_neg (by rw [hl]; simp)]
  simp only [bwrite_eq hl, hb.mask_eq, uinc_land hb.k16]
  rw [if_pos (hb.collide_iff.mpr hc)]

theorem InvK_pushFront {k : Nat} {b : Buffer α} (hb : InvK k b) (v : α) :
    InvK k (b.pushFront v) := by
  obtain ⟨l, hl, hlen⟩ := hb.stor_some
  have hh := hb.head_lt
  have ht := hb.tail_lt
  have hcnt := hb.count_eq
  have h4 := hb.four_le
  have hn := hb.n_pos
  by_cases hc : b.count = 2 ^ k - 1
  · rw [pushFront_eq_full hb hl v hc]
    refine ⟨hb.1, hb.2.1, hb.mask_eq, Nat.mod_lt _ hn, Nat.mod_lt _ hn, ?_, by simp [hlen]⟩
    simp only
    rw [hb.collide_iff.mpr hc]
    rcases Nat.lt_or_ge (b.tail + 1) (2 ^ k) with h1 | h1
    · rw [Nat.mod_eq_of_lt h1, mod_cases _ (by omega)]
      split <;> omega
    · have h2 : b.tail + 1 = 2 ^ k := by omega
      rw [h2, Nat.mod_self, mod_cases _ (by omega)]
      split <;> omega
  · rw [pushFront_eq_nonfull hb hl v hc]
    refine ⟨hb.1, hb.2.1, hb.mask_eq, Nat.mod_lt _ hn, ht, ?_, by simp [hlen]⟩
    simp only
    rcases Nat.lt_or_ge (b.head + 1) (2 ^ k) with h1 | h1
    · rw [Nat.mod_eq_of_lt h1, mod_cases _ (by omega)]
      rw [mod_cases _ (by omega)] at hcnt
      split_ifs at hcnt ⊢ <;> omega
    · have h2 : b.head + 1 = 2 ^ k := by omega
      rw [h2, Nat.mod_self, mod_cases _ (by omega)]
      rw [mod_cases _ (by omega)] at hcnt
      split_ifs at hcnt ⊢ <;> omega

/-! ### Characterisation of the read operations on well-formed buffers -/

theorem bread_eq {b : Buffer α} {l : List α} (hl : b.stor = some l) (i : Nat) :
    bread b i = l.getD i default := by
  rw [bread, hl]

/-- On a well-formed buffer, `at(i)` with `i < count` reads the cell
`(head + 2^k - 1 - i) mod 2^k`. -/
theorem atIdx_eq {k : Nat} {b : Buffer α} (hb : InvK k b) {l : List α}
    (hl : b.stor = some l) {i : Nat} (hi : i < b.count) :
    b.atIdx i = l.getD ((b.head + 2 ^ k - 1 - i) % 2 ^ k) default := by
  have hc1 : 1 ≤ b.count := by omega
  have hcU : b.count < U := lt_trans hb.count_lt hb.pow_lt_U
  have hguard : ¬ (b.stor = none ∨ i > usub b.count 1) := by
    rw [usub_one_eq hc1 hcU, hl]
    simp only [not_or]
    exact ⟨by simp, by omega⟩
  rw [Buffer.atIdx, if_neg hguard, bread_eq hl, hb.mask_eq,
    at_index_eq hb.k16 b.head i (lt_trans hi hb.count_lt)]

theorem contents_length (b : Buffer α) : b.contents.length = b.count := by
  simp [Buffer.contents]

theorem contents_getElem (b : Buffer α) {i : Nat} (hi : i < b.contents.length) :
    b.contents[i] = b.atIdx i := by
  simp [Buffer.contents]

/-- `first()` is `at(0)` (the newest element) on a well-formed non-empty
buffer. -/
theorem first_eq_atIdx {k : Nat} {b : Buffer α} (hb : InvK k b)
    (hc : 0 < b.count) : b.first = b.atIdx 0 := by
  obtain ⟨l, hl, hlen⟩ := hb.stor_some
  have hne : ¬ b.head = b.tail := fun h => by
    have := hb.count_zero_iff.mpr h; omega
  rw [Buffer.first, if_neg (by rw [hl]; simp [hne]), bread_eq hl,
    atIdx_eq hb hl hc]
  congr 1
  have h1 : usub b.head 1 = udec b.head := by
    rw [usub, udec]
    norm_num [U]
  rw [h1, hb.mask_eq, udec_land hb.k16]
  have h2 : 1 ≤ 2 ^ k := Nat.one_le_two_pow
  have h3 : b.head + 2 ^ k - 1 - 0 = b.head + (2 ^ k - 1) := by omega
  rw [h3]

/-- `last()` is `at(count-1)` (the oldest element) on a well-formed non-empty
buffer. -/
theorem last_eq_atIdx {k : Nat} {b : Buffer α} (hb : InvK k b)
    (hc : 0 < b.count) : b.last = b.atIdx (b.count - 1) := by
  obtain ⟨l, hl, hlen⟩ := hb.stor_some
  have hne : ¬ b.head = b.tail := fun h => by
    have := hb.count_zero_iff.mpr h; omega
  rw [Buffer.last, if_neg (by rw [hl]; simp [hne]), bread_eq hl,
    atIdx_eq hb hl (by omega)]
  congr 1
  have hh := hb.head_lt
  have ht := hb.tail_lt
  have hcnt := hb.count_eq
  have hclt := hb.count_lt
  rw [mod_cases (b.head + 2 ^ k - b.tail) (by omega)] at hcnt
  rw [mod_cases _ (by omega)]
  split_ifs at hcnt ⊢ <;> omega

/-! ### Effect of `pushFront` on the logical contents -/

theorem count_pushFront {k : Nat} {b : Buffer α} (hb : InvK k b) (v : α) :
    (b.pushFront v).count = min (b.count + 1) (2 ^ k - 1) := by
  obtain ⟨l, hl, hlen⟩ := hb.stor_some
  have hlt := hb.count_lt
  by_cases hc : b.count = 2 ^ k - 1
  · rw [pushFront_eq_full hb hl v hc]
    simp only
    omega
  · rw [pushFront_eq_nonfull hb hl v hc]
    simp only
    omega

theorem head_pushFront {k : Nat} {b : Buffer α} (hb : InvK k b) (v : α) :
    (b.pushFront v).head = (b.head + 1) % 2 ^ k := by
  obtain ⟨l, hl, hlen⟩ := hb.stor_some
  by_cases hc : b.count = 2 ^ k - 1
  · rw [pushFront_eq_full hb hl v hc]
  · rw [pushFront_eq_nonfull hb hl v hc]

theorem stor_pushFront {k : Nat} {b : Buffer α} (hb : InvK k b) {l : List α}
    (hl : b.stor = some l) (v : α) :
    (b.pushFront v).stor = some (l.set b.head v) := by
  by_cases hc : b.count = 2 ^ k - 1
  · rw [pushFront_eq_full hb hl v hc]
  · rw [pushFront_eq_nonfull hb hl v hc]

theorem atIdx_pushFront_zero {k : Nat} {b : Buffer α} (hb : InvK k b) (v : α) :
    (b.pushFront v).atIdx 0 = v := by
  obtain ⟨l, hl, hlen⟩ := hb.stor_some
  have hb' := InvK_pushFront hb v
  have hc' : 0 < (b.pushFront v).count := by
    rw [count_pushFront hb v]
    have := hb.four_le
    omega
  rw [atIdx_eq hb' (stor_pushFront hb hl v) hc', head_pushFront hb v]
  have hh := hb.head_lt
  have hpos : (0:Nat) < 2 ^ k := hb.n_pos
  have hidx : ((b.head + 1) % 2 ^ k + 2 ^ k - 1 - 0) % 2 ^ k = b.head := by
    rcases Nat.lt_or_ge (b.head + 1) (2 ^ k) with h1 | h1
    · rw [Nat.mod_eq_of_lt h1, mod_cases _ (by omega)]
      split <;> omega
    · have h2 : b.head + 1 = 2 ^ k := by omega
      rw [h2, Nat.mod_self, mod_cases _ (by omega)]
      split <;> omega
  rw [hidx, List.getD_eq_getElem?_getD, List.getElem?_set_self (by omega)]
  rfl

theorem atIdx_pushFront_succ {k : Nat} {b : Buffer α} (hb : InvK k b) (v : α)
    {i : Nat} (hi : i + 1 < (b.pushFront v).count) :
    (b.pushFront v).atIdx (i + 1) = b.atIdx i := by
  obtain ⟨l, hl, hlen⟩ := hb.stor_some
  have hb' := InvK_pushFront hb v
  have hcmin := count_pushFront hb v
  have hic : i < b.count := by omega
  have hclt := hb.count_lt
  have hh := hb.head_lt
  rw [atIdx_eq hb' (stor_pushFront hb hl v) (by omega), head_pushFront hb v,
    atIdx_eq hb hl hic]
  have hidx : ((b.head + 1) % 2 ^ k + 2 ^ k - 1 - (i + 1)) % 2 ^ k
      = (b.head + 2 ^ k - 1 - i) % 2 ^ k := by
    rcases Nat.lt_or_ge (b.head + 1) (2 ^ k) with h1 | h1
    · rw [Nat.mod_eq_of_lt h1, mod_cases _ (by omega), mod_cases _ (by omega)]
      split_ifs <;> omega
    · have h2 : b.head + 1 = 2 ^ k := by omega
      rw [h2, Nat.mod_self, mod_cases _ (by omega), mod_cases _ (by omega)]
      split_ifs <;> omega
  rw [hidx]
  have hne : (b.head + 2 ^ k - 1 - i) % 2 ^ k ≠ b.head := by
    rw [mod_cases _ (by omega)]
    split <;> omega
  rw [List.getD_eq_getElem?_getD, List.getD_eq_getElem?_getD,
    List.getElem?_set_ne (fun h => hne h.symm)]

/-- Pushing to the front prepends the new sample to the logical contents and
truncates to the usable capacity `2^k - 1` (dropping the evicted oldest
element when the buffer was full). -/
theorem contents_pushFront {k : Nat} {b : Buffer α} (hb : InvK k b) (v : α) :
    (b.pushFront v).contents = (v :: b.contents).take (2 ^ k - 1) := by
  have hcmin := count_pushFront hb v
  have hclt := hb.count_lt
  apply List.ext_getElem
  · rw [contents_length, List.length_take, List.length_cons, contents_length]
    omega
  · intro i h1 h2
    rw [contents_getElem]
    rw [List.getElem_take]
    rw [contents_length] at h1
    cases i with
    | zero =>
      rw [List.getElem_cons_zero, atIdx_pushFront_zero hb v]
    | succ j =>
      rw [List.getElem_cons_succ, atIdx_pushFront_succ hb v h1,
        contents_getElem]

/-! ### Invariant preservation for the remaining operations -/

theorem dec_mod {k : Nat} (hk4 : 4 ≤ 2 ^ k) {x : Nat} (hx : x < 2 ^ k) :
    (x + (2 ^ k - 1)) % 2 ^ k = if x = 0 then 2 ^ k - 1 else x - 1 := by
  rw [mod_cases _ (by omega)]
  split_ifs <;> omega

theorem inc_mod {k : Nat} (hk4 : 4 ≤ 2 ^ k) {x : Nat} (hx : x < 2 ^ k) :
    (x + 1) % 2 ^ k = if x = 2 ^ k - 1 then 0 else x + 1 := by
  rw [mod_cases _ (by omega)]
  split_ifs <;> omega

/-- After the retreat of `tail`, the collision `head == tail` happens exactly
when the buffer was full. -/
theorem InvK.collide_back_iff {k : Nat} {b : Buffer α} (hb : InvK k b) :
    b.head = (b.tail + (2 ^ k - 1)) % 2 ^ k ↔ b.count = 2 ^ k - 1 := by
  have hh := hb.head_lt
  have ht := hb.tail_lt
  have h4 := hb.four_le
  rw [hb.count_eq, mod_cases (b.tail + (2 ^ k - 1)) (by omega),
    mod_cases (b.head + 2 ^ k - b.tail) (by omega)]
  split_ifs <;> omega

theorem pushBack_eq_nonfull {k : Nat} {b : Buffer α} (hb : InvK k b)
    {l : List α} (hl : b.stor = some l) (v : α) (hc : b.count ≠ 2 ^ k - 1) :
    b.pushBack v = ⟨b.mask, (b.tail + (2 ^ k - 1)) % 2 ^ k, b.head,
      b.count + 1, some (l.set ((b.tail + (2 ^ k - 1)) % 2 ^ k) v),
      b.safeErase⟩ := by
  have hcnt : b.count + 1 < U := by
    have := hb.count_lt; have := hb.pow_lt_U; omega
  rw [Buffer.pushBack, if_neg (by rw [hl]; simp)]
  simp only [bwrite, hl, Option.map_some', hb.mask_eq, udec_land hb.k16]
  rw [if_neg (fun h => hc (hb.collide_back_iff.mp h)), uinc_eq hcnt]

theorem pushBack_eq_full {k : Nat} {b : Buffer α} (hb : InvK k b)
    {l : List α} (hl : b.stor = some l) (v : α) (hc : b.count = 2 ^ k - 1) :
    b.pushBack v = ⟨b.mask, (b.tail + (2 ^ k - 1)) % 2 ^ k,
      (b.head + (2 ^ k - 1)) % 2 ^ k, b.count,
      some (l.set ((b.tail + (2 ^ k - 1)) % 2 ^ k) v), b.safeErase⟩ := by
  rw [Buffer.pushBack, if_neg (by rw [hl]; simp)]
  simp only [bwrite, hl, Option.map_some', hb.mask_eq, udec_land hb.k16]
  rw [if_pos (hb.collide_back_iff.mpr hc)]

theorem InvK_pushBack {k : Nat} {b : Buffer α} (hb : InvK k b) (v : α) :
    InvK k (b.pushBack v) := by
  obtain ⟨l, hl, hlen⟩ := hb.stor_some
  have hh := hb.head_lt
  have ht := hb.tail_lt
  have hcnt := hb.count_eq
  have h4 := hb.four_le
  have hn := hb.n_pos
  by_cases hc : b.count = 2 ^ k - 1
  · rw [pushBack_eq_full hb hl v hc]
    refine ⟨hb.1, hb.2.1, hb.mask_eq, Nat.mod_lt _ hn, Nat.mod_lt _ hn, ?_, by simp [hlen]⟩
    simp only
    rw [dec_mod h4 hh, dec_mod h4 ht]
    rw [mod_cases _ (by omega)] at hcnt
    split_ifs at hcnt ⊢ <;>
      · rw [mod_cases _ (by omega)]
        split_ifs <;> omega
  · rw [pushBack_eq_nonfull hb hl v hc]
    refine ⟨hb.1, hb.2.1, hb.mask_eq, hh, Nat.mod_lt _ hn, ?_, by simp [hlen]⟩
    simp only
    rw [dec_mod h4 ht]
    rw [mod_cases _ (by omega)] at hcnt
    split_ifs at hcnt ⊢ <;>
      · rw [mod_cases _ (by omega)]
        split_ifs <;> omega

theorem popFront_eq {k : Nat} {b : Buffer α} (hb : InvK k b)
    (hc : 0 < b.count) :
    b.popFront = ⟨b.mask, b.tail, (b.head + (2 ^ k - 1)) % 2 ^ k,
      b.count - 1, b.stor, b.safeErase⟩ := by
  obtain ⟨l, hl, hlen⟩ := hb.stor_some
  have hcU : b.count < U := lt_trans hb.count_lt hb.pow_lt_U
  have hne : ¬ b.tail = b.head := fun h => by
    have := hb.count_zero_iff.mpr h.symm; omega
  rw [Buffer.popFront, if_neg (by rw [hl]; simp [hne]), hb.mask_eq,
    udec_land hb.k16, udec_eq hc hcU]

theorem InvK_popFront {k : Nat} {b : Buffer α} (hb : InvK k b) :
    InvK k b.popFront := by
  rcases Nat.eq_zero_or_pos b.count with hc | hc
  · have hne : b.tail = b.head := (hb.count_zero_iff.mp hc).symm
    obtain ⟨l, hl, hlen⟩ := hb.stor_some
    rw [Buffer.popFront, if_pos (Or.inr hne)]
    exact hb
  · rw [popFront_eq hb hc]
    have hh := hb.head_lt
    have ht := hb.tail_lt
    have hcnt := hb.count_eq
    have h4 := hb.four_le
    have hn := hb.n_pos
    refine ⟨hb.1, hb.2.1, hb.mask_eq, Nat.mod_lt _ hn, ht, ?_,
      hb.2.2.2.2.2.2⟩
    simp only
    rw [dec_mod h4 hh]
    rw [mod_cases _ (by omega)] at hcnt
    split_ifs at hcnt ⊢ <;>
      · rw [mod_cases _ (by omega)]
        split_ifs <;> omega

theorem popBack_eq {k : Nat} {b : Buffer α} (hb : InvK k b)
    (hc : 0 < b.count) :
    b.popBack = ⟨b.mask, (b.tail + 1) % 2 ^ k, b.head,
      b.count - 1, b.stor, b.safeErase⟩ := by
  obtain ⟨l, hl, hlen⟩ := hb.stor_some
  have hcU : b.count < U := lt_trans hb.count_lt hb.pow_lt_U
  have hne : ¬ b.tail = b.head := fun h => by
    have := hb.count_zero_iff.mpr h.symm; omega
  rw [Buffer.popBack, if_neg (by rw [hl]; simp [hne]), hb.mask_eq,
    uinc_land hb.k16, udec_eq hc hcU]

theorem InvK_popBack {k : Nat} {b : Buffer α} (hb : InvK k b) :
    InvK k b.popBack := by
  rcases Nat.eq_zero_or_pos b.count with hc | hc
  · have hne : b.tail = b.head := (hb.count_zero_iff.mp hc).symm
    obtain ⟨l, hl, hlen⟩ := hb.stor_some
    rw [Buffer.popBack, if_pos (Or.inr hne)]
    exact hb
  · rw [popBack_eq hb hc]
    have hh := hb.head_lt
    have ht := hb.tail_lt
    have hcnt := hb.count_eq
    have h4 := hb.four_le
    have hn := hb.n_pos
    refine ⟨hb.1, hb.2.1, hb.mask_eq, hh, Nat.mod_lt _ hn, ?_,
      hb.2.2.2.2.2.2⟩
    simp only
    rw [inc_mod h4 ht]
    rw [mod_cases _ (by omega)] at hcnt
    split_ifs at hcnt ⊢ <;>
      · rw [mod_cases _ (by omega)]
        split_ifs <;> omega

/-- The erase loop touches only the storage and preserves its length. -/
theorem foldl_bwrite_spec (is : List Nat) (b : Buffer α) :
    (is.foldl (fun acc i => bwrite acc i default) b).mask = b.mask ∧
    (is.foldl (fun acc i => bwrite acc i default) b).tail = b.tail ∧
    (is.foldl (fun acc i => bwrite acc i default) b).head = b.head ∧
    (is.foldl (fun acc i => bwrite acc i default) b).count = b.count ∧
    (is.foldl (fun acc i => bwrite acc i default) b).safeErase = b.safeErase ∧
    (is.foldl (fun acc i => bwrite acc i default) b).stor.map List.length
      = b.stor.map List.length := by
  induction is generalizing b with
  | nil => exact ⟨rfl, rfl, rfl, rfl, rfl, rfl⟩
  | cons i is ih =>
    have h := ih (bwrite b i default)
    simp only [List.foldl_cons]
    refine ⟨h.1, h.2.1, h.2.2.1, h.2.2.2.1, h.2.2.2.2.1, ?_⟩
    rw [h.2.2.2.2.2, bwrite]
    cases b.stor <;> simp

theorem erase_spec (b : Buffer α) :
    (b.erase).mask = b.mask ∧ (b.erase).tail = b.tail ∧
    (b.erase).head = b.head ∧ (b.erase).count = b.count ∧
    (b.erase).safeErase = b.safeErase ∧
    (b.erase).stor.map List.length = b.stor.map List.length := by
  rw [Buffer.erase]
  split
  · exact ⟨rfl, rfl, rfl, rfl, rfl, rfl⟩
  · exact foldl_bwrite_spec _ b

theorem InvK_erase {k : Nat} {b : Buffer α} (hb : InvK k b) :
    InvK k b.erase := by
  obtain ⟨h1, h2, h3, h4, h5, h6⟩ := erase_spec (b := b)
  exact ⟨hb.1, hb.2.1, h1 ▸ hb.mask_eq, h3 ▸ hb.head_lt, h2 ▸ hb.tail_lt,
    by rw [h4, h3, h2]; exact hb.count_eq, h6 ▸ hb.2.2.2.2.2.2⟩

theorem InvK_clear {k : Nat} {b : Buffer α} (hb : InvK k b) :
    InvK k b.clear := by
  have hn := hb.n_pos
  have hbase : InvK k ({ b with tail := 0, head := 0, count := 0 } : Buffer α) :=
    ⟨hb.1, hb.2.1, hb.mask_eq, hn, hn, by simp [Nat.mod_self],
      hb.2.2.2.2.2.2⟩
  rw [Buffer.clear]
  split
  · exact InvK_erase hbase
  · exact hbase

/-! ### Rotations -/

theorem usub_one_udec (x : Nat) : usub x 1 = udec x := by
  rw [usub, udec]
  norm_num [U]

theorem getD_set_self {l : List α} {i : Nat} (h : i < l.length) (v : α) :
    (l.set i v).getD i default = v := by
  rw [List.getD_eq_getElem?_getD, List.getElem?_set_self h]
  rfl

theorem getD_set_ne {l : List α} {i j : Nat} (h : i ≠ j) (v : α) :
    (l.set i v).getD j default = l.getD j default := by
  rw [List.getD_eq_getElem?_getD, List.getD_eq_getElem?_getD,
    List.getElem?_set_ne h]

theorem rotateForeward_id {k : Nat} {b : Buffer α} (hb : InvK k b)
    (hc : b.count ≠ 2 ^ k - 1) : b.rotateForeward = b := by
  rw [Buffer.rotateForeward, if_pos (by rw [hb.mask_eq]; exact hc)]

theorem rotateBackward_id {k : Nat} {b : Buffer α} (hb : InvK k b)
    (hc : b.count ≠ 2 ^ k - 1) : b.rotateBackward = b := by
  rw [Buffer.rotateBackward, if_pos (by rw [hb.mask_eq]; exact hc)]

theorem rotateForeward_eq {k : Nat} {b : Buffer α} (hb : InvK k b)
    {l : List α} (hl : b.stor = some l) (hc : b.count = 2 ^ k - 1) :
    b.rotateForeward = ⟨b.mask, (b.tail + 1) % 2 ^ k, (b.head + 1) % 2 ^ k,
      b.count,
      some ((l.set b.head (l.getD b.tail default)).set b.tail
        (l.getD b.head default)), b.safeErase⟩ := by
  rw [Buffer.rotateForeward, if_neg (by rw [hb.mask_eq]; omega)]
  simp only [bread, bwrite, hl, Option.map_some', hb.mask_eq,
    uinc_land hb.k16]

theorem rotateBackward_eq {k : Nat} {b : Buffer α} (hb : InvK k b)
    {l : List α} (hl : b.stor = some l) (hc : b.count = 2 ^ k - 1) :
    b.rotateBackward = ⟨b.mask, (b.tail + (2 ^ k - 1)) % 2 ^ k,
      (b.head + (2 ^ k - 1)) % 2 ^ k, b.count,
      some ((l.set ((b.head + (2 ^ k - 1)) % 2 ^ k) (l.getD b.head default)).set
        b.head (l.getD ((b.head + (2 ^ k - 1)) % 2 ^ k) default)),
      b.safeErase⟩ := by
  rw [Buffer.rotateBackward, if_neg (by rw [hb.mask_eq]; omega)]
  simp only [bread, bwrite, hl, Option.map_some', hb.mask_eq, usub_one_udec,
    udec_land hb.k16]

theorem InvK_rotateForeward {k : Nat} {b : Buffer α} (hb : InvK k b) :
    InvK k b.rotateForeward := by
  by_cases hc : b.count = 2 ^ k - 1
  · obtain ⟨l, hl, hlen⟩ := hb.stor_some
    have hh := hb.head_lt
    have ht := hb.tail_lt
    have hcnt := hb.count_eq
    have h4 := hb.four_le
    have hn := hb.n_pos
    rw [rotateForeward_eq hb hl hc]
    refine ⟨hb.1, hb.2.1, hb.mask_eq, Nat.mod_lt _ hn, Nat.mod_lt _ hn, ?_,
      by simp [hlen]⟩
    simp only
    rw [inc_mod h4 hh, inc_mod h4 ht]
    rw [mod_cases _ (by omega)] at hcnt
    split_ifs at hcnt ⊢ <;>
      · rw [mod_cases _ (by omega)]
        split_ifs <;> omega
  · rw [rotateForeward_id hb hc]
    exact hb

theorem InvK_rotateBackward {k : Nat} {b : Buffer α} (hb : InvK k b) :
    InvK k b.rotateBackward := by
  by_cases hc : b.count = 2 ^ k - 1
  · obtain ⟨l, hl, hlen⟩ := hb.stor_some
    have hh := hb.head_lt
    have ht := hb.tail_lt
    have hcnt := hb.count_eq
    have h4 := hb.four_le
    have hn := hb.n_pos
    rw [rotateBackward_eq hb hl hc]
    refine ⟨hb.1, hb.2.1, hb.mask_eq, Nat.mod_lt _ hn, Nat.mod_lt _ hn, ?_,
      by simp [hlen]⟩
    simp only
    rw [dec_mod h4 hh, dec_mod h4 ht]
    rw [mod_cases _ (by omega)] at hcnt
    split_ifs at hcnt ⊢ <;>
      · rw [mod_cases _ (by omega)]
        split_ifs <;> omega
  · rw [rotateBackward_id hb hc]
    exact hb

theorem dec_inc_cancel {k : Nat} (h4 : 4 ≤ 2 ^ k) {x : Nat} (hx : x < 2 ^ k) :
    ((x + 1) % 2 ^ k + (2 ^ k - 1)) % 2 ^ k = x := by
  rw [inc_mod h4 hx]
  split_ifs with h
  · rw [Nat.zero_add, Nat.mod_eq_of_lt (by omega)]
    omega
  · rw [mod_cases _ (by omega)]
    split <;> omega

/-- On a well-formed buffer, `rotateBackward` undoes `rotateForeward`
exactly: the two boundary swaps cancel and the cursors return. -/
theorem rotate_roundtrip {k : Nat} {b : Buffer α} (hb : InvK k b) :
    b.rotateForeward.rotateBackward = b := by
  by_cases hc : b.count = 2 ^ k - 1
  · obtain ⟨l, hl, hlen⟩ := hb.stor_some
    have hh := hb.head_lt
    have ht := hb.tail_lt
    have h4 := hb.four_le
    have hb' := InvK_rotateForeward hb
    have htl : b.tail = (b.head + 1) % 2 ^ k := (hb.collide_iff.mpr hc).symm
    have hne : b.head ≠ b.tail := fun h => by
      have h0 := hb.count_zero_iff.mpr h
      omega
    rw [rotateForeward_eq hb hl hc] at hb' ⊢
    rw [rotateBackward_eq hb' rfl hc]
    simp only
    rw [dec_inc_cancel h4 hh, dec_inc_cancel h4 ht, ← htl]
    have hlen' : ((l.set b.head (l.getD b.tail default)).set b.tail
        (l.getD b.head default)).length = 2 ^ k := by simp [hlen]
    have e1 : ((l.set b.head (l.getD b.tail default)).set b.tail
        (l.getD b.head default)).getD b.tail default = l.getD b.head default :=
      getD_set_self (by simp [hlen]; omega) _
    have e2 : ((l.set b.head (l.getD b.tail default)).set b.tail
        (l.getD b.head default)).getD b.head default = l.getD b.tail default := by
      rw [getD_set_ne (fun h => hne h.symm), getD_set_self (by omega) _]
    rw [e1, e2]
    have hstor : (((l.set b.head (l.getD b.tail default)).set b.tail
          (l.getD b.head default)).set b.head (l.getD b.head default)).set b.tail
          (l.getD b.tail default) = l := by
      apply List.ext_getElem
      · simp [hlen]
      · intro j hj1 hj2
        by_cases jt : j = b.tail
        · subst jt
          rw [List.getElem_set_self, List.getD_eq_getElem]
        · by_cases jh : j = b.head
          · subst jh
            rw [List.getElem_set_ne (fun h => jt h.symm),
              List.getElem_set_self, List.getD_eq_getElem]
          · rw [List.getElem_set_ne (fun h => jt h.symm),
              List.getElem_set_ne (fun h => jh h.symm),
              List.getElem_set_ne (fun h => jt h.symm),
              List.getElem_set_ne (fun h => jh h.symm)]
    rw [hstor, ← hl]
  · rw [rotateForeward_id hb hc, rotateBackward_id hb hc]

/-! ### Pushing whole sample lists -/

theorem pushList_cons (b : Buffer α) (w : α) (ws : List α) :
    b.pushList (w :: ws) = (b.pushFront w).pushList ws := by
  simp [Buffer.pushList]

theorem InvK_pushList {k : Nat} {b : Buffer α} (hb : InvK k b)
    (vs : List α) : InvK k (b.pushList vs) := by
  induction vs generalizing b with
  | nil => exact hb
  | cons w ws ih =>
    rw [pushList_cons]
    exact ih (InvK_pushFront hb w)

theorem contents_take_id {k : Nat} {b : Buffer α} (hb : InvK k b) :
    b.contents.take (2 ^ k - 1) = b.contents :=
  List.take_of_length_le (by rw [contents_length]; have := hb.count_lt; omega)

theorem take_append_take (xs ys : List α) (m : Nat) :
    (xs ++ ys.take m).take m = (xs ++ ys).take m := by
  rw [List.take_append_eq_append_take, List.take_append_eq_append_take,
    List.take_take]
  congr 1
  rw [min_eq_left (by omega)]

/-- The logical contents after pushing the samples `vs` (oldest first): the
reversed sample list in front of the old contents, truncated to the usable
capacity. -/
theorem contents_pushList {k : Nat} {b : Buffer α} (hb : InvK k b)
    (vs : List α) :
    (b.pushList vs).contents = (vs.reverse ++ b.contents).take (2 ^ k - 1) := by
  induction vs generalizing b with
  | nil => simp [Buffer.pushList, contents_take_id hb]
  | cons w ws ih =>
    rw [pushList_cons, ih (InvK_pushFront hb w), contents_pushFront hb w,
      List.reverse_cons, List.append_assoc, take_append_take,
      List.singleton_append]

theorem atIdx_eq_contents_getD {b : Buffer α} {i : Nat} (hi : i < b.count) :
    b.atIdx i = b.contents.getD i default := by
  rw [List.getD_eq_getElem _ _ (by rw [contents_length]; exact hi),
    contents_getElem]

theorem first_eq_getD {k : Nat} {b : Buffer α} (hb : InvK k b)
    (hc : 0 < b.count) : b.first = b.contents.getD 0 default := by
  rw [first_eq_atIdx hb hc, atIdx_eq_contents_getD hc]

theorem last_eq_getD {k : Nat} {b : Buffer α} (hb : InvK k b)
    (hc : 0 < b.count) : b.last = b.contents.getD (b.count - 1) default := by
  rw [last_eq_atIdx hb hc, atIdx_eq_contents_getD (by omega)]

/-! ### Construction and reachability -/

theorem ctor_pow {k : Nat} (hk2 : 2 ≤ k) (l0 : List α) (se : Bool) :
    Buffer.ctor (some l0) (2 ^ k) se =
      if se then (⟨2 ^ k - 1, 0, 0, 0, some l0, se⟩ : Buffer α).erase
      else ⟨2 ^ k - 1, 0, 0, 0, some l0, se⟩ := by
  have h4 : (4 : Nat) ≤ 2 ^ k := by
    calc (4 : Nat) = 2 ^ 2 := rfl
    _ ≤ 2 ^ k := Nat.pow_le_pow_right (by omega) hk2
  have hand : 2 ^ k &&& (2 ^ k - 1) = 0 := by
    rw [Nat.and_pow_two_sub_one_eq_mod, Nat.mod_self]
  rw [Buffer.ctor, if_neg (by omega)]
  simp [hand]

theorem InvK_ctor {k : Nat} (hk2 : 2 ≤ k) (hk15 : k ≤ 15) {l0 : List α}
    (hlen : l0.length = 2 ^ k) (se : Bool) :
    InvK k (Buffer.ctor (some l0) (2 ^ k) se) := by
  have hn : 0 < 2 ^ k := Nat.pos_pow_of_pos k (by omega)
  have base : InvK k (⟨2 ^ k - 1, 0, 0, 0, some l0, se⟩ : Buffer α) :=
    ⟨hk2, hk15, rfl, hn, hn, by simp [Nat.mod_self], by simp [hlen]⟩
  rw [ctor_pow hk2]
  split
  · exact InvK_erase base
  · exact base

theorem InvK_step {k : Nat} {b b' : Buffer α} (hb : InvK k b)
    (h : BufStep b b') : InvK k b' := by
  cases h with
  | pushFront v => exact InvK_pushFront hb v
  | pushBack v => exact InvK_pushBack hb v
  | popFront => exact InvK_popFront hb
  | popBack => exact InvK_popBack hb
  | clear => exact InvK_clear hb
  | erase => exact InvK_erase hb
  | rotateForeward => exact InvK_rotateForeward hb
  | rotateBackward => exact InvK_rotateBackward hb

theorem InvK_reachable {k : Nat} {b0 b : Buffer α} (hb : InvK k b0)
    (h : Reachable b0 b) : InvK k b := by
  induction h with
  | refl => exact hb
  | tail _ hstep ih => exact InvK_step ih hstep

theorem InvK.size_eq {k : Nat} {b : Buffer α} (hb : InvK k b) :
    b.size = 2 ^ k - 1 := by
  have h4 := hb.four_le
  rw [Buffer.size, hb.mask_eq, if_neg (by omega)]

theorem contents_nil {b : Buffer α} (hc : b.count = 0) : b.contents = [] := by
  rw [Buffer.contents, hc]
  rfl

/-! ### Claim theorems: buffer capacity, overflow, round-trip, rotation -/

/-- C5: from a validly constructed buffer of capacity `2^k` (2 ≤ k, and
`k ≤ 15` so the capacity fits the 16-bit `uint_t`), every reachable state has
`size() = 2^k - 1`, `count() ≤ 2^k - 1`, `full()` exactly at
`count() = 2^k - 1`, and both pushes keep `count() ≤ capacity - 1`. -/
theorem spec_C5 {k : Nat} (hk2 : 2 ≤ k) (hk15 : k ≤ 15) (l0 : List α)
    (hlen : l0.length = 2 ^ k) (se : Bool) (b : Buffer α)
    (hreach : Reachable (Buffer.ctor (some l0) (2 ^ k) se) b) :
    b.size = 2 ^ k - 1 ∧ b.count ≤ 2 ^ k - 1 ∧
    (b.full = true ↔ b.count = 2 ^ k - 1) ∧
    (∀ v : α, (b.pushFront v).count ≤ 2 ^ k - 1 ∧
      (b.pushBack v).count ≤ 2 ^ k - 1) := by
  have hb : InvK k b := InvK_reachable (InvK_ctor hk2 hk15 hlen se) hreach
  refine ⟨hb.size_eq, by have := hb.count_lt; omega, ?_, fun v => ?_⟩
  · rw [Buffer.full, hb.mask_eq, beq_iff_eq]
  · constructor
    · have := (InvK_pushFront hb v).count_lt; omega
    · have := (InvK_pushBack hb v).count_lt; omega

/-- Witness for C5 at `k = 2`, zeroed storage, the initial state itself. -/
theorem spec_C5_witness :
    (Buffer.ctor (some [0, 0, 0, 0]) (2 ^ 2) false : Buffer Int).size
      = 2 ^ 2 - 1 := by
  have h := spec_C5 (k := 2) (by omega) (by omega) ([0, 0, 0, 0] : List Int)
    (by decide) false _ Relation.ReflTransGen.refl
  exact h.1

/-- C6: pushing `size()+1` samples through `pushFront` leaves
`count() = size()`, the surviving contents are exactly the last `size()`
samples (the first-pushed one has been evicted), and `first()`/`last()` are
the newest and the oldest surviving sample. -/
theorem spec_C6 {k : Nat} {b : Buffer α} (hb : InvK k b) (w : α)
    (ws : List α) (hlen : (w :: ws).length = b.size + 1) :
    (b.pushList (w :: ws)).count = (b.pushList (w :: ws)).size ∧
    (b.pushList (w :: ws)).contents = ws.reverse ∧
    (b.pushList (w :: ws)).first = ws.getD (ws.length - 1) default ∧
    (b.pushList (w :: ws)).last = ws.getD 0 default := by
  have hb' : InvK k (b.pushList (w :: ws)) := InvK_pushList hb _
  have h4 := hb.four_le
  have hwlen : ws.length = 2 ^ k - 1 := by
    rw [hb.size_eq] at hlen
    simpa using hlen
  have hcont : (b.pushList (w :: ws)).contents = ws.reverse := by
    rw [contents_pushList hb, List.reverse_cons, List.append_assoc,
      List.take_append_eq_append_take, List.take_of_length_le (by simp [hwlen]),
      List.length_reverse, hwlen, Nat.sub_self, List.take_zero,
      List.append_nil]
  have hcnt : (b.pushList (w :: ws)).count = 2 ^ k - 1 := by
    rw [← contents_length, hcont, List.length_reverse, hwlen]
  refine ⟨by rw [hcnt, hb'.size_eq], hcont, ?_, ?_⟩
  · rw [first_eq_getD hb' (by omega), hcont,
      List.getD_eq_getElem _ _ (by simp; omega),
      List.getElem_reverse, List.getD_eq_getElem _ _ (by omega)]
    congr 1 <;> omega
  · rw [last_eq_getD hb' (by omega), hcont, hcnt,
      List.getD_eq_getElem _ _ (by simp; omega),
      List.getElem_reverse, List.getD_eq_getElem _ _ (by omega)]
    congr 1 <;> omega

/-- Witness for C6: capacity 4, pushing `[10, 20, 30, 40]`; the survivors are
`[20, 30, 40]`, `first() = 40`, `last() = 20`. -/
theorem spec_C6_witness :
    ((Buffer.ctor (some [0, 0, 0, 0]) (2 ^ 2) false : Buffer Int).pushList
      (10 :: [20, 30, 40])).contents = [20, 30, 40].reverse := by
  have hb : InvK 2 (Buffer.ctor (some [0, 0, 0, 0]) (2 ^ 2) false :
      Buffer Int) := InvK_ctor (by omega) (by omega) (by decide) false
  have h := spec_C6 hb (10 : Int) [20, 30, 40] (by decide)
  exact h.2.1

/-- C7: pushing `n ≤ size()` samples into an empty well-formed buffer makes
`at(i)` return them in exact reverse-push order. -/
theorem spec_C7 {k : Nat} {b : Buffer α} (hb : InvK k b) (hc : b.count = 0)
    (ws : List α) (hlen : ws.length ≤ b.size) {i : Nat}
    (hi : i < ws.length) :
    (b.pushList ws).atIdx i = ws.getD (ws.length - 1 - i) default := by
  have h4 := hb.four_le
  have hcont : (b.pushList ws).contents = ws.reverse := by
    rw [contents_pushList hb, contents_nil hc, List.append_nil,
      List.take_of_length_le (by rw [List.length_reverse]; rw [hb.size_eq] at hlen; omega)]
  have hcnt : (b.pushList ws).count = ws.length := by
    rw [← contents_length, hcont, List.length_reverse]
  rw [atIdx_eq_contents_getD (by omega), hcont,
    List.getD_eq_getElem _ _ (by simpa using hi),
    List.getElem_reverse, List.getD_eq_getElem _ _ (by omega)]

/-- Witness for C7: capacity 8, pushing `[1, 2, 3]`; `at(0)` is the last
pushed sample `3`. -/
theorem spec_C7_witness :
    ((Buffer.ctor (some [0, 0, 0, 0, 0, 0, 0, 0]) (2 ^ 3) false :
      Buffer Int).pushList [1, 2, 3]).atIdx 0
      = [1, 2, 3].getD ([1, 2, 3].length - 1 - 0) default := by
  have hb : InvK 3 (Buffer.ctor (some [0, 0, 0, 0, 0, 0, 0, 0]) (2 ^ 3) false :
      Buffer Int) := InvK_ctor (by omega) (by omega) (by decide) false
  exact spec_C7 hb (by decide) [1, 2, 3] (by decide) (by decide)

/-- C10: on every well-formed buffer state, `rotateBackward` after
`rotateForeward` restores the buffer exactly; on a non-full buffer each
rotation is already a no-op. -/
theorem spec_C10 (b : Buffer α) (hb : Inv b) :
    b.rotateForeward.rotateBackward = b ∧
    (b.count ≠ b.mask → b.rotateForeward = b ∧ b.rotateBackward = b) := by
  obtain ⟨k, hbk⟩ := hb
  refine ⟨rotate_roundtrip hbk, fun hne => ?_⟩
  rw [hbk.mask_eq] at hne
  exact ⟨rotateForeward_id hbk hne, rotateBackward_id hbk hne⟩

/-- Witness for C10 on a concrete full capacity-4 buffer. -/
theorem spec_C10_witness :
    ((Buffer.ctor (some [0, 0, 0, 0]) (2 ^ 2) false : Buffer Int).pushList
      [1, 2, 3]).rotateForeward.rotateBackward
      = (Buffer.ctor (some [0, 0, 0, 0]) (2 ^ 2) false : Buffer Int).pushList
        [1, 2, 3] := by
  have hb : InvK 2 (Buffer.ctor (some [0, 0, 0, 0]) (2 ^ 2) false :
      Buffer Int) := InvK_ctor (by omega) (by omega) (by decide) false
  exact (spec_C10 _ ⟨2, InvK_pushList hb [1, 2, 3]⟩).1

/-! ### Claim theorems: out-of-range `at`, invalid construction, copyToArray -/

/-- C1 (failing input): on a capacity-4 buffer, push `[1,2,3,4]` and pop the
front three times; then `count() = 0`, yet `at(0)` returns the stale stored
sample `1` instead of the default value `0` — the guard
`index > count - 1` wraps in `uint_t` arithmetic when `count = 0`.  The spec
demands the default for every index `≥ count()`. -/
theorem spec_C1 :
    (((Buffer.ctor (some [0, 0, 0, 0]) 4 false : Buffer Int).pushList
      [1, 2, 3, 4]).popFront.popFront.popFront.count = 0 ∧
    ((Buffer.ctor (some [0, 0, 0, 0]) 4 false : Buffer Int).pushList
      [1, 2, 3, 4]).popFront.popFront.popFront.atIdx 0 = 1 ∧
    ((Buffer.ctor (some [0, 0, 0, 0]) 4 false : Buffer Int).pushList
      [1, 2, 3, 4]).popFront.popFront.popFront.atIdx 0 ≠ default) := by
  decide

/-- C2 (counterexample): `init` performs no capacity validation.  Rebinding a
default-constructed buffer to a 5-element array with capacity 5 (not a power
of two) leaves the buffer *valid*, contradicting the claim that the buffer
becomes invalid. -/
theorem spec_C2_counterexample :
    ((Buffer.ctor none 0 false : Buffer Int).init (some [0, 0, 0, 0, 0]) 5
      false).valid = true := by
  decide

/-- C2 (amended): the *constructor* leaves the buffer invalid for every
capacity that is not a power of two or is ≤ 3, and on an unbound buffer every
null-guarded operation (`pushFront`, `pushBack`, `popFront`, `popBack`, `at`,
`first`, `last`, `copyToArray`, `erase`, and `clear` from the
freshly-constructed cursor state) is a no-op or default-value return.
`init`, by contrast, validates nothing: binding any non-null storage marks
the buffer valid regardless of the capacity (see the counterexample). -/
theorem spec_C2 (buffer : Option (List α)) (size : Nat) (se : Bool)
    (hbad : size ≤ 3 ∨ size &&& (size - 1) ≠ 0) :
    (Buffer.ctor buffer size se).valid = false ∧
    (∀ b : Buffer α, b.stor = none →
      (∀ v, b.pushFront v = b) ∧ (∀ v, b.pushBack v = b) ∧
      b.popFront = b ∧ b.popBack = b ∧
      (∀ i, b.atIdx i = default) ∧ b.first = default ∧ b.last = default ∧
      (∀ arr s c, b.copyToArray arr s c = arr) ∧ b.erase = b ∧
      (b.tail = 0 ∧ b.head = 0 ∧ b.count = 0 → b.clear = b)) := by
  constructor
  · rw [Buffer.ctor]
    by_cases hs : size ≤ 3
    · rw [if_pos hs]
      rfl
    · rw [if_neg hs, if_pos (by tauto)]
      rfl
  · intro b hnull
    obtain ⟨m, t, h, c, s, e⟩ := b
    cases hnull
    refine ⟨fun v => ?_, fun v => ?_, ?_, ?_, fun i => ?_, ?_, ?_,
      fun arr s c => ?_, ?_, ?_⟩
    · rw [Buffer.pushFront, if_pos rfl]
    · rw [Buffer.pushBack, if_pos rfl]
    · rw [Buffer.popFront, if_pos (Or.inl rfl)]
    · rw [Buffer.popBack, if_pos (Or.inl rfl)]
    · rw [Buffer.atIdx, if_pos (Or.inl rfl)]
    · rw [Buffer.first, if_pos (Or.inl rfl)]
    · rw [Buffer.last, if_pos (Or.inl rfl)]
    · rw [Buffer.copyToArray, if_pos (Or.inl rfl)]
    · rw [Buffer.erase, if_pos rfl]
    · rintro ⟨rfl, rfl, rfl⟩
      simp [Buffer.clear, Buffer.erase]

/-- Witness for C2 at capacity 5. -/
theorem spec_C2_witness :
    (Buffer.ctor (some [0, 0, 0, 0, 0]) 5 false : Buffer Int).valid
      = false :=
  (spec_C2 (some [0, 0, 0, 0, 0]) 5 false (by decide)).1

/-- The element the copy loop reads at logical index `i < count` is exactly
`at(i)`. -/
theorem copy_read_eq {k : Nat} {b : Buffer α} (hb : InvK k b) {i : Nat}
    (hi : i < b.count) :
    bread b (usub (usub b.head 1) i &&& b.mask) = b.atIdx i := by
  obtain ⟨l, hl, hlen⟩ := hb.stor_some
  have hc1 : 1 ≤ b.count := by omega
  have hcU : b.count < U := lt_trans hb.count_lt hb.pow_lt_U
  rw [Buffer.atIdx, if_neg]
  rw [usub_one_eq hc1 hcU, hl]
  simp only [not_or]
  exact ⟨by simp, by omega⟩

theorem foldl_set_spec (f : Nat → α) (d : List α) (s n : Nat) :
    ((List.range' s n).foldl (fun acc i => acc.set i (f i)) d).length
        = d.length ∧
    ∀ j, j < d.length →
      ((List.range' s n).foldl (fun acc i => acc.set i (f i)) d).getD j default
        = if s ≤ j ∧ j < s + n then f j else d.getD j default := by
  induction n generalizing s d with
  | zero =>
    refine ⟨rfl, fun j hj => ?_⟩
    rw [if_neg (by omega)]
    rfl
  | succ n ih =>
    rw [List.range'_succ]
    simp only [List.foldl_cons]
    obtain ⟨ihl, ihd⟩ := ih (d.set s (f s)) (s + 1)
    refine ⟨by rw [ihl]; simp, fun j hj => ?_⟩
    rw [ihd j (by simpa using hj)]
    by_cases hjs : j = s
    · subst hjs
      rw [if_neg (by omega), if_pos (by omega), getD_set_self hj _]
    · by_cases hin : s + 1 ≤ j ∧ j < s + 1 + n
      · rw [if_pos hin, if_pos (by omega)]
      · rw [if_neg hin, if_neg (by omega), getD_set_ne (fun hx => hjs hx.symm)]

theorem foldl_set_congr (f g : Nat → α) (d : List α) (s n : Nat)
    (h : ∀ i, s ≤ i → i < s + n → f i = g i) :
    (List.range' s n).foldl (fun acc i => acc.set i (f i)) d
      = (List.range' s n).foldl (fun acc i => acc.set i (g i)) d := by
  induction n generalizing s d with
  | zero => rfl
  | succ n ih =>
    rw [List.range'_succ]
    simp only [List.foldl_cons]
    rw [h s (by omega) (by omega)]
    exact ih _ (s + 1) (fun i h1 h2 => h i (by omega) (by omega))

/-- C8 (counterexample): with two stored elements, `copyToArray(dest, 0, 2)`
asks for the range `[0, 2)`, which lies within the occupancy `2` — yet the
code rejects it (the guard requires `start + count ≤ count() - 1`) and the
destination is untouched. -/
theorem spec_C8_counterexample :
    ((Buffer.ctor (some [0, 0, 0, 0]) 4 false : Buffer Int).pushList
      [1, 2]).copyToArray (some [9, 9]) 0 2 = some [9, 9] := by
  decide

/-- C8 (amended): on a well-formed non-empty buffer, `copyToArray` copies
`dest[i] = at(i)` for the requested logical indices when
`start + count < count()` (for `count ≥ 1`) or `start < count()` (for the
`count = 0` copy-through-the-end sentinel), and no-ops exactly when
`start + count > count() - 1` — so, unlike the claim, the boundary range with
`start + count = count()` is also rejected. -/
theorem spec_C8 {k : Nat} {b : Buffer α} (hb : InvK k b) (hne : 0 < b.count)
    (d : List α) (start cnt : Nat) (hU : start + cnt < U) :
    (((1 ≤ cnt ∧ b.count ≤ start + cnt) ∨ (cnt = 0 ∧ b.count ≤ start)) →
      b.copyToArray (some d) start cnt = some d) ∧
    (1 ≤ cnt → start + cnt < b.count →
      ∃ r, b.copyToArray (some d) start cnt = some r ∧ r.length = d.length ∧
        ∀ j, j < d.length →
          r.getD j default
            = if start ≤ j ∧ j < start + cnt then b.atIdx j
              else d.getD j default) ∧
    (cnt = 0 → start < b.count →
      ∃ r, b.copyToArray (some d) start cnt = some r ∧ r.length = d.length ∧
        ∀ j, j < d.length →
          r.getD j default
            = if start ≤ j ∧ j < b.count then b.atIdx j
              else d.getD j default) := by
  obtain ⟨l, hl, hlen⟩ := hb.stor_some
  have hcU : b.count < U := lt_trans hb.count_lt hb.pow_lt_U
  have hnem : ¬ b.head = b.tail := fun h => by
    have := hb.count_zero_iff.mpr h; omega
  have hmod : (start + cnt) % U = start + cnt := Nat.mod_eq_of_lt hU
  have hu1 : usub b.count 1 = b.count - 1 := usub_one_eq (by omega) hcU
  refine ⟨fun hrej => ?_, fun hc1 hin => ?_, fun hc0 hin => ?_⟩
  · rw [Buffer.copyToArray, if_neg (by rw [hl]; simp), if_neg (by simp [hnem]),
      if_pos]
    rw [hmod, hu1]
    omega
  · rw [Buffer.copyToArray, if_neg (by rw [hl]; simp), if_neg (by simp [hnem]),
      if_neg (by rw [hmod, hu1]; omega)]
    simp only [Option.map_some']
    rw [if_neg (by omega), hmod]
    rw [foldl_set_congr _ (fun i => b.atIdx i) d start (start + cnt - start)
      (fun i h1 h2 => copy_read_eq hb (by omega))]
    obtain ⟨hrl, hrd⟩ := foldl_set_spec (fun i => b.atIdx i) d start
      (start + cnt - start)
    refine ⟨_, rfl, hrl, fun j hj => ?_⟩
    rw [hrd j hj]
    have he : start + (start + cnt - start) = start + cnt := by omega
    rw [he]
  · rw [Buffer.copyToArray, if_neg (by rw [hl]; simp), if_neg (by simp [hnem]),
      if_neg (by rw [hmod, hu1]; omega)]
    simp only [Option.map_some']
    rw [if_pos hc0]
    rw [foldl_set_congr _ (fun i => b.atIdx i) d start (b.count - start)
      (fun i h1 h2 => copy_read_eq hb (by omega))]
    obtain ⟨hrl, hrd⟩ := foldl_set_spec (fun i => b.atIdx i) d start
      (b.count - start)
    refine ⟨_, rfl, hrl, fun j hj => ?_⟩
    rw [hrd j hj]
    have he : start + (b.count - start) = b.count := by omega
    rw [he]

/-- Witness for C8: capacity 4 holding `[2, 1]`, destination `[9, 9, 9]`,
`start = 0`, `count = 1`. -/
theorem spec_C8_witness :
    ∃ r, ((Buffer.ctor (some [0, 0, 0, 0]) 4 false : Buffer Int).pushList
        [1, 2]).copyToArray (some [9, 9, 9]) 0 1 = some r ∧
      r.length = [9, 9, 9].length ∧
      ∀ j, j < [9, 9, 9].length →
        r.getD j default
          = if 0 ≤ j ∧ j < 0 + 1 then
              ((Buffer.ctor (some [0, 0, 0, 0]) 4 false : Buffer Int).pushList
                [1, 2]).atIdx j
            else [9, 9, 9].getD j default := by
  have hb : InvK 2 ((Buffer.ctor (some [0, 0, 0, 0]) 4 false :
      Buffer Int).pushList [1, 2]) := by decide
  exact (spec_C8 hb (by decide) [9, 9, 9] 0 1 (by decide)).2.1
    (by decide) (by decide)

/-! ### Claim C3: exact median -/

/-- In a sorted list, fewer than `j + 1` elements are strictly below the
element at index `j`. -/
theorem sorted_countP_lt {s : List Int} (hs : s.Sorted (fun a b => a ≤ b))
    {j : Nat} (hj : j < s.length) :
    s.countP (fun y => decide (y < s[j])) ≤ j := by
  set x := s[j] with hx
  conv_lhs => rw [← List.take_append_drop j s]
  rw [List.countP_append]
  have h2 : (s.drop j).countP (fun y => decide (y < x)) = 0 := by
    rw [List.countP_eq_zero]
    intro a ha
    obtain ⟨i, hi, rfl⟩ := List.getElem_of_mem ha
    simp only [decide_eq_true_eq, not_lt, List.getElem_drop]
    have hji : j + i < s.length := by
      rw [List.length_drop] at hi
      omega
    have h := hs.rel_get_of_le (a := ⟨j, hj⟩) (b := ⟨j + i, hji⟩)
      (Fin.mk_le_mk.mpr (by omega))
    rw [hx]
    simpa using h
  rw [h2, Nat.add_zero]
  exact le_trans (List.countP_le_length _) (by rw [List.length_take]; omega)

/-- In a sorted list, at least `j + 1` elements are at most the element at
index `j`. -/
theorem sorted_countP_le {s : List Int} (hs : s.Sorted (fun a b => a ≤ b))
    {j : Nat} (hj : j < s.length) :
    j < s.countP (fun y => decide (y ≤ s[j])) := by
  set x := s[j] with hx
  conv_rhs => rw [← List.take_append_drop (j + 1) s]
  rw [List.countP_append]
  have h1 : (s.take (j + 1)).countP (fun y => decide (y ≤ x))
      = (s.take (j + 1)).length := by
    rw [List.countP_eq_length]
    intro a ha
    obtain ⟨i, hi, rfl⟩ := List.getElem_of_mem ha
    simp only [decide_eq_true_eq, List.getElem_take]
    have hil : i < s.length := by
      rw [List.length_take] at hi
      omega
    have h := hs.rel_get_of_le (a := ⟨i, hil⟩) (b := ⟨j, hj⟩)
      (Fin.mk_le_mk.mpr (by rw [List.length_take] at hi; omega))
    rw [hx]
    simpa using h
  rw [h1, List.length_take]
  omega

/-- The scan of `MovingMedian::out` returns the element of rank `mid`: the
skip bounds never exclude it, and any element accepted by the rank window is
equal to it. -/
theorem medianScan_some {xs : List Int} {mid : Nat} (m : Int)
    (huniq : ∀ x : Int, xs.countP (fun y => decide (y < x)) ≤ mid →
      mid < xs.countP (fun y => decide (y ≤ x)) → x = m)
    (hmL : xs.countP (fun y => decide (y < m)) ≤ mid)
    (hmR : mid < xs.countP (fun y => decide (y ≤ m))) :
    ∀ (suffix : List Int) (sg sl : Option Int), m ∈ suffix →
      (∀ g, sg = some g → m < g) → (∀ l0, sl = some l0 → l0 < m) →
      medianScan xs mid suffix sg sl = some m := by
  intro suffix
  induction suffix with
  | nil => intro sg sl hmem _ _; simp at hmem
  | cons c rest ih =>
    intro sg sl hmem hsg hsl
    rw [medianScan]
    by_cases h1 : sgSkip sg c = true
    · rw [if_pos h1]
      have hcm : c ≠ m := by
        cases sg with
        | none => simp [sgSkip] at h1
        | some g =>
          have hg := hsg g rfl
          simp only [sgSkip, decide_eq_true_eq] at h1
          omega
      have hmem' : m ∈ rest := by
        rcases List.mem_cons.mp hmem with h | h
        · exact absurd h (fun hh => hcm hh.symm)
        · exact h
      exact ih sg sl hmem' hsg hsl
    · rw [if_neg h1]
      by_cases h2 : slSkip sl c = true
      · rw [if_pos h2]
        have hcm : c ≠ m := by
          cases sl with
          | none => simp [slSkip] at h2
          | some l0 =>
            have hg := hsl l0 rfl
            simp only [slSkip, decide_eq_true_eq] at h2
            omega
        have hmem' : m ∈ rest := by
          rcases List.mem_cons.mp hmem with h | h
          · exact absurd h (fun hh => hcm hh.symm)
          · exact h
        exact ih sg sl hmem' hsg hsl
      · rw [if_neg h2]
        by_cases h3 : xs.countP (fun y => decide (y < c)) ≤ mid ∧
            mid < xs.countP (fun y => decide (y ≤ c))
        · rw [if_pos h3]
          rw [huniq c h3.1 h3.2]
        · rw [if_neg h3]
          by_cases h4 : mid < xs.countP (fun y => decide (y < c))
          · rw [if_pos h4]
            have hmc : m < c := by
              by_contra hcon
              push_neg at hcon
              have : xs.countP (fun y => decide (y < c))
                  ≤ xs.countP (fun y => decide (y < m)) := by
                apply List.countP_mono_left
                intro x _ hx
                simp only [decide_eq_true_eq] at hx ⊢
                omega
              omega
            have hcm : c ≠ m := by omega
            have hmem' : m ∈ rest := by
              rcases List.mem_cons.mp hmem with h | h
              · exact absurd h (fun hh => hcm hh.symm)
              · exact h
            exact ih (some c) sl hmem'
              (by rintro g hg; cases hg; exact hmc) hsl
          · rw [if_neg h4]
            by_cases h5 : xs.countP (fun y => decide (y ≤ c)) ≤ mid
            · rw [if_pos h5]
              have hmc : c < m := by
                by_contra hcon
                push_neg at hcon
                have : xs.countP (fun y => decide (y ≤ m))
                    ≤ xs.countP (fun y => decide (y ≤ c)) := by
                  apply List.countP_mono_left
                  intro x _ hx
                  simp only [decide_eq_true_eq] at hx ⊢
                  omega
                omega
              have hcm : c ≠ m := by omega
              have hmem' : m ∈ rest := by
                rcases List.mem_cons.mp hmem with h | h
                · exact absurd h (fun hh => hcm hh.symm)
                · exact h
              exact ih sg (some c) hmem'
                hsg (by rintro l0 hl0; cases hl0; exact hmc)
            · exact absurd ⟨by omega, by omega⟩ h3

/-- The full scan computes the element at index `mid` of the sorted
permutation of `xs`. -/
theorem medianScan_full (xs : List Int) (mid : Nat) (hmid : mid < xs.length) :
    medianScan xs mid xs none none
      = some ((xs.insertionSort (fun a b => a ≤ b)).getD mid default) := by
  have hperm : List.Perm (xs.insertionSort (fun a b => a ≤ b)) xs :=
    List.perm_insertionSort _ xs
  have hs : (xs.insertionSort (fun a b => a ≤ b)).Sorted (fun a b => a ≤ b) :=
    List.sorted_insertionSort _ xs
  have hlen : (xs.insertionSort (fun a b => a ≤ b)).length = xs.length :=
    hperm.length_eq
  have hmid' : mid < (xs.insertionSort (fun a b => a ≤ b)).length := by omega
  set s := xs.insertionSort (fun a b => a ≤ b) with hsdef
  have hgetD : s.getD mid default = s[mid] := List.getD_eq_getElem _ _ hmid'
  rw [hgetD]
  have hcnt : ∀ p : Int → Bool, xs.countP p = s.countP p :=
    fun p => (hperm.countP_eq p).symm
  have hmL : xs.countP (fun y => decide (y < s[mid])) ≤ mid := by
    rw [hcnt]
    exact sorted_countP_lt hs hmid'
  have hmR : mid < xs.countP (fun y => decide (y ≤ s[mid])) := by
    rw [hcnt]
    exact sorted_countP_le hs hmid'
  have hmxs : s[mid] ∈ xs := hperm.subset (List.getElem_mem hmid')
  apply medianScan_some s[mid] ?_ hmL hmR xs none none hmxs
    (by rintro g ⟨⟩) (by rintro l0 ⟨⟩)
  intro x hxL hxR
  rcases lt_trichotomy x s[mid] with h | h | h
  · exfalso
    have hmono : xs.countP (fun y => decide (y ≤ x))
        ≤ xs.countP (fun y => decide (y < s[mid])) :=
      List.countP_mono_left (fun z _ hz => by
        simp only [decide_eq_true_eq] at hz ⊢
        omega)
    omega
  · exact h
  · exfalso
    have hmono : xs.countP (fun y => decide (y ≤ s[mid]))
        ≤ xs.countP (fun y => decide (y < x)) :=
      List.countP_mono_left (fun z _ hz => by
        simp only [decide_eq_true_eq] at hz ⊢
        omega)
    omega

/-- C3: with at least 3 samples stored, `MovingMedian::out` returns exactly
the element at index `⌊count/2⌋` of the fully sorted current logical
contents (duplicates included, since the rank window counts multiplicity). -/
theorem spec_C3 (b : Buffer Int) (h3 : 3 ≤ b.count) :
    MovingMedian.out b
      = (b.contents.insertionSort (fun a b => a ≤ b)).getD (b.count / 2)
          default := by
  simp only [MovingMedian.out]
  rw [if_neg (by omega), medianScan_full b.contents (b.count / 2)
    (by rw [contents_length]; omega)]

/-- Witness for C3: the spec example, pushing `[5,3,8,1,9,2,7]` into a
capacity-8 buffer. -/
theorem spec_C3_witness :
    MovingMedian.out ((Buffer.ctor (some [0, 0, 0, 0, 0, 0, 0, 0]) 8 false :
        Buffer Int).pushList [5, 3, 8, 1, 9, 2, 7])
      = (((Buffer.ctor (some [0, 0, 0, 0, 0, 0, 0, 0]) 8 false :
        Buffer Int).pushList [5, 3, 8, 1, 9, 2, 7]).contents.insertionSort
          (fun a b => a ≤ b)).getD
        (((Buffer.ctor (some [0, 0, 0, 0, 0, 0, 0, 0]) 8 false :
        Buffer Int).pushList [5, 3, 8, 1, 9, 2, 7]).count / 2) default :=
  spec_C3 _ (by decide)

/-! ### Claims C4 and C9: the extremum tracker -/

/-- The conditional distance computation of movingmiddle.h is the absolute
difference. -/
theorem dist_ite_eq (m x : ℚ) : (if m > x then m - x else x - m) = |m - x| := by
  split
  · rw [abs_of_pos (by linarith)]
  · rw [abs_of_nonpos (by linarith)]
    ring

theorem valid_of_some {b : Buffer α} {l : List α} (hl : b.stor = some l) :
    b.valid = true := by
  rw [Buffer.valid, hl]
  rfl

theorem full_true_iff {k : Nat} {b : Buffer α} (hb : InvK k b) :
    b.full = true ↔ b.count = 2 ^ k - 1 := by
  rw [Buffer.full, hb.mask_eq, beq_iff_eq]

theorem contents_pushFront_full {k : Nat} {b : Buffer α} (hb : InvK k b)
    (hc : b.count = 2 ^ k - 1) (v : α) :
    (b.pushFront v).contents = v :: b.contents.dropLast := by
  rw [contents_pushFront hb v]
  have hlen : b.contents.length = 2 ^ k - 1 := by
    rw [contents_length, hc]
  have h4 := hb.four_le
  rw [List.take_cons (by omega), List.dropLast_eq_take, hlen]

theorem contents_pushFront_nonfull {k : Nat} {b : Buffer α} (hb : InvK k b)
    (hc : b.count ≠ 2 ^ k - 1) (v : α) :
    (b.pushFront v).contents = v :: b.contents := by
  rw [contents_pushFront hb v]
  have hlt := hb.count_lt
  apply List.take_of_length_le
  rw [List.length_cons, contents_length]
  omega

/-- The contents split as the surviving prefix plus the oldest element. -/
theorem contents_decomp {k : Nat} {b : Buffer α} (hb : InvK k b)
    (hc : 0 < b.count) :
    b.contents = b.contents.dropLast ++ [b.last] := by
  have hne : b.contents ≠ [] := by
    intro h
    have := contents_length (b := b)
    rw [h] at this
    simp at this
    omega
  have hlen0 : 0 < b.contents.length := by rw [contents_length]; omega
  conv_lhs => rw [← List.dropLast_append_getLast hne]
  congr 1
  rw [last_eq_getD hb hc, ← contents_length b,
    List.getLast_eq_getElem, List.getD_eq_getElem _ _ (by omega)]

/-- Fold invariant for the rescan loop of `MovingMiddle::in`: after
processing indices `[s, s+m)` the accumulator is the exact min/max of all
elements seen so far. -/
theorem rescan_fold (b : Buffer ℚ) :
    ∀ (m s : Nat) (acc : ℚ × ℚ),
      (∃ i, i < s ∧ acc.1 = b.atIdx i) →
      (∃ i, i < s ∧ acc.2 = b.atIdx i) →
      (∀ i, i < s → acc.1 ≤ b.atIdx i ∧ b.atIdx i ≤ acc.2) →
      (∃ i, i < s + m ∧
          ((List.range' s m).foldl (MovingMiddle.rescanStep b) acc).1
            = b.atIdx i) ∧
        (∃ i, i < s + m ∧
          ((List.range' s m).foldl (MovingMiddle.rescanStep b) acc).2
            = b.atIdx i) ∧
        ∀ i, i < s + m →
          ((List.range' s m).foldl (MovingMiddle.rescanStep b) acc).1
              ≤ b.atIdx i ∧
            b.atIdx i
              ≤ ((List.range' s m).foldl (MovingMiddle.rescanStep b) acc).2 := by
  intro m
  induction m with
  | zero =>
    intro s acc h1 h2 h3
    exact ⟨by simpa using h1, by simpa using h2, by simpa using h3⟩
  | succ m ih =>
    intro s acc h1 h2 h3
    rw [List.range'_succ]
    simp only [List.foldl_cons]
    obtain ⟨i0, hi0, he0⟩ := h1
    obtain ⟨j0, hj0, hf0⟩ := h2
    have hacc12 : acc.1 ≤ acc.2 := he0 ▸ (h3 i0 hi0).2
    have hkey : (∃ i, i < s + 1 ∧ (MovingMiddle.rescanStep b acc s).1
          = b.atIdx i) ∧
        (∃ i, i < s + 1 ∧ (MovingMiddle.rescanStep b acc s).2 = b.atIdx i) ∧
        ∀ i, i < s + 1 → (MovingMiddle.rescanStep b acc s).1 ≤ b.atIdx i ∧
          b.atIdx i ≤ (MovingMiddle.rescanStep b acc s).2 := by
      simp only [MovingMiddle.rescanStep]
      by_cases hA : b.atIdx s < acc.1
      · rw [if_pos hA]
        refine ⟨⟨s, by omega, rfl⟩, ⟨j0, by omega, hf0⟩, fun i hi => ?_⟩
        rcases Nat.lt_or_ge i s with his | his
        · exact ⟨le_trans (le_of_lt hA) (h3 i his).1, (h3 i his).2⟩
        · have his' : i = s := by omega
          subst his'
          exact ⟨le_refl _, le_trans (le_of_lt hA) hacc12⟩
      · rw [if_neg hA]
        by_cases hB : b.atIdx s > acc.2
        · rw [if_pos hB]
          refine ⟨⟨i0, by omega, he0⟩, ⟨s, by omega, rfl⟩, fun i hi => ?_⟩
          rcases Nat.lt_or_ge i s with his | his
          · exact ⟨(h3 i his).1, le_trans (h3 i his).2 (le_of_lt hB)⟩
          · have his' : i = s := by omega
            subst his'
            exact ⟨le_of_not_lt hA, le_refl _⟩
        · rw [if_neg hB]
          refine ⟨⟨i0, by omega, he0⟩, ⟨j0, by omega, hf0⟩, fun i hi => ?_⟩
          rcases Nat.lt_or_ge i s with his | his
          · exact h3 i his
          · have his' : i = s := by omega
            subst his'
            exact ⟨le_of_not_lt hA, le_of_not_lt hB⟩
    obtain ⟨hk1, hk2, hk3⟩ := hkey
    obtain ⟨⟨a1, ha1, hae1⟩, ⟨a2, ha2, hae2⟩, hb3⟩ :=
      ih (s + 1) (MovingMiddle.rescanStep b acc s) hk1 hk2 hk3
    exact ⟨⟨a1, by omega, hae1⟩, ⟨a2, by omega, hae2⟩,
      fun i hi => hb3 i (by omega)⟩

/-- Fold invariant for the selection loop of `MovingMiddle::out`: after
processing indices `[s, s+m)` the accumulator holds the first element with
minimal distance to `middle` among those seen so far, together with that
distance. -/
theorem outStep_fold (b : Buffer ℚ) (middle : ℚ) :
    ∀ (m s : Nat) (acc : ℚ × ℚ),
      (∃ j, j < s ∧ acc.1 = b.atIdx j ∧ acc.2 = |middle - b.atIdx j| ∧
        (∀ i, i < s → acc.2 ≤ |middle - b.atIdx i|) ∧
        (∀ i, i < j → acc.2 < |middle - b.atIdx i|)) →
      ∃ j, j < s + m ∧
        ((List.range' s m).foldl (MovingMiddle.outStep b middle) acc).1
          = b.atIdx j ∧
        ((List.range' s m).foldl (MovingMiddle.outStep b middle) acc).2
          = |middle - b.atIdx j| ∧
        (∀ i, i < s + m →
          ((List.range' s m).foldl (MovingMiddle.outStep b middle) acc).2
            ≤ |middle - b.atIdx i|) ∧
        (∀ i, i < j →
          ((List.range' s m).foldl (MovingMiddle.outStep b middle) acc).2
            < |middle - b.atIdx i|) := by
  intro m
  induction m with
  | zero =>
    intro s acc h
    simpa using h
  | succ m ih =>
    intro s acc h
    rw [List.range'_succ]
    simp only [List.foldl_cons]
    obtain ⟨j0, hj0, ha1, ha2, hall, hfirst⟩ := h
    have hkey : ∃ j, j < s + 1 ∧ (MovingMiddle.outStep b middle acc s).1
          = b.atIdx j ∧
        (MovingMiddle.outStep b middle acc s).2 = |middle - b.atIdx j| ∧
        (∀ i, i < s + 1 → (MovingMiddle.outStep b middle acc s).2
          ≤ |middle - b.atIdx i|) ∧
        ∀ i, i < j → (MovingMiddle.outStep b middle acc s).2
          < |middle - b.atIdx i| := by
      simp only [MovingMiddle.outStep, dist_ite_eq]
      by_cases hA : |middle - b.atIdx s| < acc.2
      · rw [if_pos hA]
        refine ⟨s, by omega, rfl, rfl, fun i hi => ?_, fun i hi => ?_⟩
        · rcases Nat.lt_or_ge i s with his | his
          · exact le_trans (le_of_lt hA) (hall i his)
          · have his' : i = s := by omega
            subst his'
            exact le_refl _
        · exact lt_of_lt_of_le hA (hall i (by omega))
      · rw [if_neg hA]
        refine ⟨j0, by omega, ha1, ha2, fun i hi => ?_, hfirst⟩
        rcases Nat.lt_or_ge i s with his | his
        · exact hall i his
        · have his' : i = s := by omega
          subst his'
          exact le_of_not_lt hA
    obtain ⟨a, ha, h1, h2, h3, h4⟩ :=
      ih (s + 1) (MovingMiddle.outStep b middle acc s) hkey
    exact ⟨a, by omega, h1, h2, fun i hi => h3 i (by omega), h4⟩

/-- Packaging lemma: establishing the tracker spec for a state whose contents
are `v :: ys`. -/
theorem minmax_cons {b2 : Buffer ℚ} {v mn mx : ℚ} {ys : List ℚ}
    (hcont : b2.contents = v :: ys)
    (hmn : mn ∈ v :: ys) (hmx : mx ∈ v :: ys)
    (hbd : ∀ x ∈ v :: ys, mn ≤ x ∧ x ≤ mx) :
    MinMaxOk ⟨b2, mn, mx⟩ := by
  simp only [MinMaxOk, hcont]
  exact ⟨hmn, hmx, hbd⟩

/-- One step of `MovingMiddle::in` preserves well-formedness of the buffer
and correctness of the cached extrema. -/
theorem in_preserves {k : Nat} {st : MovingMiddle} (hb : InvK k st.buf)
    (hmm : st.buf.count ≠ 0 → MinMaxOk st) (v : ℚ) :
    InvK k (st.in_ v).buf ∧
      ((st.in_ v).buf.count ≠ 0 → MinMaxOk (st.in_ v)) := by
  obtain ⟨l, hl, hlen⟩ := hb.stor_some
  have hval := valid_of_some hl
  have h4 := hb.four_le
  have hclt := hb.count_lt
  have hb' := InvK_pushFront hb v
  simp only [MovingMiddle.in_, hval, Bool.not_true]
  rw [if_neg (by simp)]
  by_cases hfull : st.buf.full = true
  · rw [if_pos hfull]
    have hc : st.buf.count = 2 ^ k - 1 := (full_true_iff hb).mp hfull
    obtain ⟨hminmem, hmaxmem, hbound⟩ := hmm (by omega)
    have hminmax : st.m_min ≤ st.m_max := (hbound _ hminmem).2
    have hdec := contents_decomp hb (by omega)
    have hys_len : st.buf.contents.dropLast.length = 2 ^ k - 2 := by
      rw [List.length_dropLast, contents_length, hc]
      omega
    have hys_ne : st.buf.contents.dropLast ≠ [] := by
      intro h
      rw [h] at hys_len
      simp at hys_len
      omega
    have hcont' := contents_pushFront_full hb hc v
    have hlastc : st.buf.last ∈ st.buf.contents := by
      rw [hdec]
      exact List.mem_append_right _ (List.mem_singleton.mpr rfl)
    have hys_sub : ∀ x ∈ st.buf.contents.dropLast, x ∈ st.buf.contents := by
      intro x hx
      rw [hdec]
      exact List.mem_append_left _ hx
    have hmem_min : st.m_min ∈ st.buf.contents.dropLast ∨
        st.m_min = st.buf.last := by
      rw [hdec] at hminmem
      rcases List.mem_append.mp hminmem with h | h
      · exact Or.inl h
      · exact Or.inr (List.mem_singleton.mp h)
    have hmem_max : st.m_max ∈ st.buf.contents.dropLast ∨
        st.m_max = st.buf.last := by
      rw [hdec] at hmaxmem
      rcases List.mem_append.mp hmaxmem with h | h
      · exact Or.inl h
      · exact Or.inr (List.mem_singleton.mp h)
    by_cases h1 : v = st.buf.last
    · rw [if_pos h1]
      refine ⟨hb', fun _ => minmax_cons hcont' ?_ ?_ ?_⟩
      · rcases hmem_min with h | h
        · exact List.mem_cons_of_mem _ h
        · rw [h, ← h1]
          exact List.mem_cons_self _ _
      · rcases hmem_max with h | h
        · exact List.mem_cons_of_mem _ h
        · rw [h, ← h1]
          exact List.mem_cons_self _ _
      · intro x hx
        rcases List.mem_cons.mp hx with h | h
        · subst h
          exact hbound _ (h1 ▸ hlastc)
        · exact hbound _ (hys_sub _ h)
    · rw [if_neg h1]
      by_cases h2 : st.buf.last = st.m_min ∧ v < st.m_min
      · rw [if_pos h2]
        refine ⟨hb', fun _ => minmax_cons hcont' (List.mem_cons_self _ _)
          ?_ ?_⟩
        · rcases hmem_max with h | h
          · exact List.mem_cons_of_mem _ h
          · have hem : st.m_max = st.m_min := by rw [h, h2.1]
            obtain ⟨y, hy⟩ := List.exists_mem_of_ne_nil _ hys_ne
            have hyb := hbound _ (hys_sub _ hy)
            have hym : y = st.m_max := le_antisymm hyb.2 (hem ▸ hyb.1)
            exact List.mem_cons_of_mem _ (hym ▸ hy)
        · intro x hx
          rcases List.mem_cons.mp hx with h | h
          · subst h
            exact ⟨le_refl _, le_trans (le_of_lt h2.2) hminmax⟩
          · exact ⟨le_trans (le_of_lt h2.2) (hbound _ (hys_sub _ h)).1,
              (hbound _ (hys_sub _ h)).2⟩
      · rw [if_neg h2]
        by_cases h3 : st.buf.last = st.m_max ∧ v > st.m_max
        · rw [if_pos h3]
          refine ⟨hb', fun _ => minmax_cons hcont' ?_
            (List.mem_cons_self _ _) ?_⟩
          · rcases hmem_min with h | h
            · exact List.mem_cons_of_mem _ h
            · have hem : st.m_min = st.m_max := by rw [h, h3.1]
              obtain ⟨y, hy⟩ := List.exists_mem_of_ne_nil _ hys_ne
              have hyb := hbound _ (hys_sub _ hy)
              have hym : y = st.m_min := le_antisymm (hem ▸ hyb.2) hyb.1
              exact List.mem_cons_of_mem _ (hym ▸ hy)
          · intro x hx
            rcases List.mem_cons.mp hx with h | h
            · subst h
              exact ⟨le_trans hminmax (le_of_lt h3.2), le_refl _⟩
            · exact ⟨(hbound _ (hys_sub _ h)).1,
                le_trans (hbound _ (hys_sub _ h)).2 (le_of_lt h3.2)⟩
        · rw [if_neg h3]
          by_cases hor : st.buf.last = st.m_min ∨ st.buf.last = st.m_max
          · rw [if_pos hor]
            have hcnt1 : 0 < (st.buf.pushFront v).count := by
              rw [count_pushFront hb v]
              omega
            have hfst : (st.buf.pushFront v).first
                = (st.buf.pushFront v).atIdx 0 := first_eq_atIdx hb' hcnt1
            obtain ⟨⟨i1, hi1, hr1⟩, ⟨i2, hi2, hr2⟩, hrb⟩ :=
              rescan_fold (st.buf.pushFront v) ((st.buf.pushFront v).count - 1)
                1 ((st.buf.pushFront v).first, (st.buf.pushFront v).first)
                ⟨0, by omega, hfst⟩ ⟨0, by omega, hfst⟩
                (fun i hi => by
                  have hi0 : i = 0 := by omega
                  subst hi0
                  rw [hfst]
                  exact ⟨le_refl _, le_refl _⟩)
            refine ⟨hb', fun _ => minmax_cons hcont' ?_ ?_ ?_⟩
            · rw [← hcont', hr1, ← contents_getElem _
                (by rw [contents_length]; omega)]
              exact List.getElem_mem _
            · rw [← hcont', hr2, ← contents_getElem _
                (by rw [contents_length]; omega)]
              exact List.getElem_mem _
            · intro x hx
              rw [← hcont'] at hx
              obtain ⟨i, hilt, hieq⟩ := List.getElem_of_mem hx
              have hia : x = (st.buf.pushFront v).atIdx i := by
                rw [← hieq, contents_getElem]
              rw [contents_length] at hilt
              have hres := hrb i (by omega)
              rw [← hia] at hres
              exact hres
          · rw [if_neg hor]
            push_neg at hor
            have hmin_ys : st.m_min ∈ st.buf.contents.dropLast := by
              rcases hmem_min with h | h
              · exact h
              · exact absurd h.symm hor.1
            have hmax_ys : st.m_max ∈ st.buf.contents.dropLast := by
              rcases hmem_max with h | h
              · exact h
              · exact absurd h.symm hor.2
            by_cases h5 : v > st.m_max
            · rw [if_pos h5]
              refine ⟨hb', fun _ => minmax_cons hcont'
                (List.mem_cons_of_mem _ hmin_ys) (List.mem_cons_self _ _)
                ?_⟩
              intro x hx
              rcases List.mem_cons.mp hx with h | h
              · subst h
                exact ⟨le_trans hminmax (le_of_lt h5), le_refl _⟩
              · exact ⟨(hbound _ (hys_sub _ h)).1,
                  le_trans (hbound _ (hys_sub _ h)).2 (le_of_lt h5)⟩
            · rw [if_neg h5]
              by_cases h6 : v < st.m_min
              · rw [if_pos h6]
                refine ⟨hb', fun _ => minmax_cons hcont'
                  (List.mem_cons_self _ _)
                  (List.mem_cons_of_mem _ hmax_ys) ?_⟩
                intro x hx
                rcases List.mem_cons.mp hx with h | h
                · subst h
                  exact ⟨le_refl _, le_trans (le_of_lt h6) hminmax⟩
                · exact ⟨le_trans (le_of_lt h6) (hbound _ (hys_sub _ h)).1,
                    (hbound _ (hys_sub _ h)).2⟩
              · rw [if_neg h6]
                refine ⟨hb', fun _ => minmax_cons hcont'
                  (List.mem_cons_of_mem _ hmin_ys)
                  (List.mem_cons_of_mem _ hmax_ys) ?_⟩
                intro x hx
                rcases List.mem_cons.mp hx with h | h
                · subst h
                  exact ⟨le_of_not_lt h6, le_of_not_lt h5⟩
                · exact hbound _ (hys_sub _ h)
  · rw [if_neg hfull]
    have hcfull : st.buf.count ≠ 2 ^ k - 1 :=
      fun h => hfull ((full_true_iff hb).mpr h)
    have hcont' := contents_pushFront_nonfull hb hcfull v
    have hcnt' : (st.buf.pushFront v).count = st.buf.count + 1 := by
      rw [count_pushFront hb v]
      omega
    by_cases h1 : (st.buf.pushFront v).count = 1
    · rw [if_pos h1]
      have hc0 : st.buf.count = 0 := by omega
      have hcnil : st.buf.contents = [] := contents_nil hc0
      rw [hcnil] at hcont'
      refine ⟨hb', fun _ => minmax_cons hcont' (List.mem_cons_self _ _)
        (List.mem_cons_self _ _) ?_⟩
      intro x hx
      rcases List.mem_cons.mp hx with h | h
      · subst h
        exact ⟨le_refl _, le_refl _⟩
      · simp at h
    · rw [if_neg h1]
      obtain ⟨hminmem, hmaxmem, hbound⟩ := hmm (by omega)
      have hminmax : st.m_min ≤ st.m_max := (hbound _ hminmem).2
      by_cases h2 : v < st.m_min
      · rw [if_pos h2]
        refine ⟨hb', fun _ => minmax_cons hcont' (List.mem_cons_self _ _)
          (List.mem_cons_of_mem _ hmaxmem) ?_⟩
        intro x hx
        rcases List.mem_cons.mp hx with h | h
        · subst h
          exact ⟨le_refl _, le_trans (le_of_lt h2) hminmax⟩
        · exact ⟨le_trans (le_of_lt h2) (hbound _ h).1, (hbound _ h).2⟩
      · rw [if_neg h2]
        by_cases h3 : v > st.m_max
        · rw [if_pos h3]
          refine ⟨hb', fun _ => minmax_cons hcont'
            (List.mem_cons_of_mem _ hminmem) (List.mem_cons_self _ _) ?_⟩
          intro x hx
          rcases List.mem_cons.mp hx with h | h
          · subst h
            exact ⟨le_trans hminmax (le_of_lt h3), le_refl _⟩
          · exact ⟨(hbound _ h).1, le_trans (hbound _ h).2 (le_of_lt h3)⟩
        · rw [if_neg h3]
          refine ⟨hb', fun _ => minmax_cons hcont'
            (List.mem_cons_of_mem _ hminmem)
            (List.mem_cons_of_mem _ hmaxmem) ?_⟩
          intro x hx
          rcases List.mem_cons.mp hx with h | h
          · subst h
            exact ⟨le_of_not_lt h2, le_of_not_lt h3⟩
          · exact hbound _ h

/-- C4: after any sequence of samples fed through `MovingMiddle::in` from a
freshly constructed tracker (capacity `2^k`, 2 ≤ k ≤ 15, storage of matching
length), whenever the buffer is non-empty the cached `m_min`/`m_max` are
elements of the current live contents and bound every live element — i.e.
they are the true minimum and maximum. -/
theorem spec_C4 {k : Nat} (hk2 : 2 ≤ k) (hk15 : k ≤ 15) (stor : List ℚ)
    (hlen : stor.length = 2 ^ k) (vs : List ℚ)
    (hne : ((MovingMiddle.ctor (some stor) (2 ^ k)).run vs).buf.count ≠ 0) :
    MinMaxOk ((MovingMiddle.ctor (some stor) (2 ^ k)).run vs) := by
  have hinit : InvK k (MovingMiddle.ctor (some stor) (2 ^ k)).buf :=
    InvK_ctor hk2 hk15 hlen false
  have hc0 : (MovingMiddle.ctor (some stor) (2 ^ k)).buf.count = 0 := by
    simp [MovingMiddle.ctor, ctor_pow hk2]
  have main : ∀ (ws : List ℚ) (st : MovingMiddle), InvK k st.buf →
      (st.buf.count ≠ 0 → MinMaxOk st) →
      InvK k (st.run ws).buf ∧
        ((st.run ws).buf.count ≠ 0 → MinMaxOk (st.run ws)) := by
    intro ws
    induction ws with
    | nil => intro st h1 h2; exact ⟨h1, h2⟩
    | cons w ws ih =>
      intro st h1 h2
      have hstep := in_preserves h1 h2 w
      simp only [MovingMiddle.run, List.foldl_cons]
      exact ih (st.in_ w) hstep.1 hstep.2
  exact (main vs _ hinit (fun h => absurd hc0 h)).2 hne

/-- Witness for C4: capacity 4, pushing `[3, 1, 4, 1, 5]` (with eviction). -/
theorem spec_C4_witness :
    MinMaxOk ((MovingMiddle.ctor (some [0, 0, 0, 0]) (2 ^ 2)).run
      [3, 1, 4, 1, 5]) :=
  spec_C4 (by omega) (by omega) [0, 0, 0, 0] (by decide) [3, 1, 4, 1, 5]
    (by decide)

/-- C9: with at least two live elements, `MovingMiddle::out` returns the live
element of minimal absolute distance to the midpoint
`m_min + (m_max - m_min)/2`, scanning from the newest element (`at(0)`, the
initial candidate) and keeping the earliest-found candidate on ties; with
fewer than two elements it returns the default value. -/
theorem spec_C9 (st : MovingMiddle) (hb : Inv st.buf) :
    (st.buf.count < 2 → st.out = default) ∧
    (2 ≤ st.buf.count →
      ∃ j, j < st.buf.count ∧ st.out = st.buf.atIdx j ∧
        (∀ i, i < st.buf.count →
          |st.m_min + (st.m_max - st.m_min) / 2 - st.buf.atIdx j|
            ≤ |st.m_min + (st.m_max - st.m_min) / 2 - st.buf.atIdx i|) ∧
        (∀ i, i < j →
          |st.m_min + (st.m_max - st.m_min) / 2 - st.buf.atIdx j|
            < |st.m_min + (st.m_max - st.m_min) / 2 - st.buf.atIdx i|)) := by
  obtain ⟨k, hbk⟩ := hb
  constructor
  · intro h2
    rw [MovingMiddle.out, if_pos h2]
  · intro h2
    have hcnt1 : 0 < st.buf.count := by omega
    have hfst := first_eq_atIdx hbk hcnt1
    simp only [MovingMiddle.out]
    rw [if_neg (by omega)]
    obtain ⟨j, hj, h1, hd, h3, h4⟩ :=
      outStep_fold st.buf (st.m_min + (st.m_max - st.m_min) / 2)
        (st.buf.count - 1) 1
        (st.buf.first,
          if st.m_min + (st.m_max - st.m_min) / 2 > st.buf.first then
            st.m_min + (st.m_max - st.m_min) / 2 - st.buf.first
          else st.buf.first - (st.m_min + (st.m_max - st.m_min) / 2))
        ⟨0, by omega, hfst, by rw [dist_ite_eq, hfst],
          fun i hi => by
            have hi0 : i = 0 := by omega
            subst hi0
            rw [dist_ite_eq, hfst],
          fun i hi => absurd hi (by omega)⟩
    refine ⟨j, by omega, h1, fun i hi => ?_, fun i hi => ?_⟩
    · rw [← hd]
      exact h3 i (by omega)
    · rw [← hd]
      exact h4 i hi

/-- Witness for C9 on a tracker holding `[9, 5, 1]` (newest first) with
`m_min = 1`, `m_max = 9`. -/
theorem spec_C9_witness :
    2 ≤ ((MovingMiddle.ctor (some [0, 0, 0, 0]) (2 ^ 2)).run
        [1, 5, 9]).buf.count ∧
    ∃ j, j < ((MovingMiddle.ctor (some [0, 0, 0, 0]) (2 ^ 2)).run
        [1, 5, 9]).buf.count ∧
      ((MovingMiddle.ctor (some [0, 0, 0, 0]) (2 ^ 2)).run [1, 5, 9]).out
        = ((MovingMiddle.ctor (some [0, 0, 0, 0]) (2 ^ 2)).run
            [1, 5, 9]).buf.atIdx j ∧
      (∀ i, i < ((MovingMiddle.ctor (some [0, 0, 0, 0]) (2 ^ 2)).run
          [1, 5, 9]).buf.count →
        |((MovingMiddle.ctor (some [0, 0, 0, 0]) (2 ^ 2)).run
              [1, 5, 9]).m_min
            + (((MovingMiddle.ctor (some [0, 0, 0, 0]) (2 ^ 2)).run
                [1, 5, 9]).m_max
              - ((MovingMiddle.ctor (some [0, 0, 0, 0]) (2 ^ 2)).run
                [1, 5, 9]).m_min) / 2
            - ((MovingMiddle.ctor (some [0, 0, 0, 0]) (2 ^ 2)).run
                [1, 5, 9]).buf.atIdx j|
          ≤ |((MovingMiddle.ctor (some [0, 0, 0, 0]) (2 ^ 2)).run
              [1, 5, 9]).m_min
            + (((MovingMiddle.ctor (some [0, 0, 0, 0]) (2 ^ 2)).run
                [1, 5, 9]).m_max
              - ((MovingMiddle.ctor (some [0, 0, 0, 0]) (2 ^ 2)).run
                [1, 5, 9]).m_min) / 2
            - ((MovingMiddle.ctor (some [0, 0, 0, 0]) (2 ^ 2)).run
                [1, 5, 9]).buf.atIdx i|) ∧
      (∀ i, i < j →
        |((MovingMiddle.ctor (some [0, 0, 0, 0]) (2 ^ 2)).run
              [1, 5, 9]).m_min
            + (((MovingMiddle.ctor (some [0, 0, 0, 0]) (2 ^ 2)).run
                [1, 5, 9]).m_max
              - ((MovingMiddle.ctor (some [0, 0, 0, 0]) (2 ^ 2)).run
                [1, 5, 9]).m_min) / 2
            - ((MovingMiddle.ctor (some [0, 0, 0, 0]) (2 ^ 2)).run
                [1, 5, 9]).buf.atIdx j|
          < |((MovingMiddle.ctor (some [0, 0, 0, 0]) (2 ^ 2)).run
              [1, 5, 9]).m_min
            + (((MovingMiddle.ctor (some [0, 0, 0, 0]) (2 ^ 2)).run
                [1, 5, 9]).m_max
              - ((MovingMiddle.ctor (some [0, 0, 0, 0]) (2 ^ 2)).run
                [1, 5, 9]).m_min) / 2
            - ((MovingMiddle.ctor (some [0, 0, 0, 0]) (2 ^ 2)).run
                [1, 5, 9]).buf.atIdx i|) :=
  ⟨by decide,
    (spec_C9 ((MovingMiddle.ctor (some [0, 0, 0, 0]) (2 ^ 2)).run [1, 5, 9])
      ⟨2, by decide⟩).2 (by decide)⟩

end LibFilter